import Mathlib

/-!
# Verification of the Black–Scholes option pricing library

A shallow embedding, over the exact reals, of the pricing core found in
`src/cli/main.cpp` (the `BlackScholesModel` with Greeks), `unnamed/part_001`
(the price-only `BlackScholesModel`), and `unnamed/part_003` (`PricingResult`).
Machine `double` arithmetic is idealised as real arithmetic; the decimal
literals of the source become the exact rationals they denote.
-/

namespace Pricing

noncomputable section

/-- `OptionType` from `Option.hpp` (referenced by every source file). -/
inductive OptionType
  | Call
  | Put
deriving DecidableEq

/-- The contract descriptor `pricing::core::Option`: kind, strike, maturity. -/
structure Option where
  kind : OptionType
  strike : ℝ
  timeToExpiration : ℝ

/-- `Option::isCall()`. -/
def Option.isCall (o : Option) : Bool :=
  match o.kind with
  | OptionType.Call => true
  | OptionType.Put => false

/-- The market snapshot `pricing::core::MarketData`: spot, rate, volatility. -/
structure MarketData where
  spot : ℝ
  riskFreeRate : ℝ
  volatility : ℝ

/-- The result record `pricing::core::PricingResult` (`unnamed/part_003`):
price plus five sensitivities, all fields defaulted to `0.0`. -/
structure PricingResult where
  price : ℝ := 0
  delta : ℝ := 0
  gamma : ℝ := 0
  vega : ℝ := 0
  theta : ℝ := 0
  rho : ℝ := 0

/-- `PricingResult::hasGreeks()`: some sensitivity field is non-zero. -/
def PricingResult.hasGreeks (res : PricingResult) : Prop :=
  res.delta ≠ 0 ∨ res.gamma ≠ 0 ∨ res.vega ≠ 0 ∨ res.theta ≠ 0 ∨ res.rho ≠ 0

/-- Modelled from the spec: the constructor of the contract descriptor
(`Option.hpp` is not under src/, only its callers and tests are); per §4.1 it
fails with an invalid-argument condition iff `strike ≤ 0` or
`timeToExpiration < 0`. -/
def mkOption (kind : OptionType) (strike timeToExpiration : ℝ) :
    Except String Option :=
  if strike ≤ 0 then Except.error "Strike must be positive"
  else if timeToExpiration < 0 then
    Except.error "Time to expiration must be non-negative"
  else Except.ok ⟨kind, strike, timeToExpiration⟩

/-- Modelled from the spec: the constructor of the market snapshot
(`MarketData.hpp` is not under src/); per §4.2 it fails with an
invalid-argument condition iff `spot ≤ 0` or `volatility < 0`, while the rate
is unconstrained. -/
def mkMarketData (spot riskFreeRate volatility : ℝ) :
    Except String MarketData :=
  if spot ≤ 0 then Except.error "Spot must be positive"
  else if volatility < 0 then Except.error "Volatility must be non-negative"
  else Except.ok ⟨spot, riskFreeRate, volatility⟩

/-! ## The normal CDF approximation of `BlackScholesModel::normalCDF`

The source fixes the five Abramowitz–Stegun coefficients and `p` as local
`const double`s; they are hoisted here unchanged. -/

def a1 : ℝ := 0.254829592
def a2 : ℝ := -0.284496736
def a3 : ℝ := 1.421413741
def a4 : ℝ := -1.453152027
def a5 : ℝ := 1.061405429
def p : ℝ := 0.3275911

/-- The Horner chain `(((((a5*t + a4)*t) + a3)*t + a2)*t + a1)*t` of
`normalCDF`, exactly as parenthesised in the source. -/
def asPoly (t : ℝ) : ℝ :=
  (((((a5 * t + a4) * t) + a3) * t + a2) * t + a1) * t

/-- `BlackScholesModel::normalCDF`: sign splitting, `t = 1/(1 + p*|x|)`,
`y = 1 - poly(t) * exp(-|x|*|x|)`, result `0.5 * (1 + sign * y)`. -/
def normalCDF (x : ℝ) : ℝ :=
  let sign : ℝ := if x < 0 then -1 else 1
  let ax : ℝ := if x < 0 then -x else x
  let t : ℝ := 1.0 / (1.0 + p * ax)
  let y : ℝ := 1.0 - asPoly t * Real.exp (-ax * ax)
  0.5 * (1.0 + sign * y)

/-- `BlackScholesModel::normalPDF` with the source's literal constant
`1 / sqrt(2 * pi)` rounded to double precision. -/
def inv_sqrt_2pi : ℝ := 0.3989422804014327

def normalPDF (x : ℝ) : ℝ :=
  inv_sqrt_2pi * Real.exp (-0.5 * x * x)

/-! ## The auxiliary quantities and price helpers -/

/-- `BlackScholesModel::calculateD1`, including its defensive guard. -/
def calculateD1 (S K r sigma T : ℝ) : ℝ :=
  if S ≤ 0 ∨ K ≤ 0 ∨ T ≤ 0 ∨ sigma ≤ 0 then 0
  else (Real.log (S / K) + (r + 0.5 * sigma * sigma) * T) /
    (sigma * Real.sqrt T)

/-- `BlackScholesModel::calculateD2`. -/
def calculateD2 (d1 sigma T : ℝ) : ℝ :=
  d1 - sigma * Real.sqrt T

/-- `BlackScholesModel::calculateCallPrice`. -/
def calculateCallPrice (S K r T d1 d2 : ℝ) : ℝ :=
  S * normalCDF d1 - K * Real.exp (-r * T) * normalCDF d2

/-- `BlackScholesModel::calculatePutPrice`. -/
def calculatePutPrice (S K r T d1 d2 : ℝ) : ℝ :=
  K * Real.exp (-r * T) * normalCDF (-d2) - S * normalCDF (-d1)

/-- `BlackScholesModel::calculateDelta`. -/
def calculateDelta (isCall : Bool) (d1 : ℝ) : ℝ :=
  if isCall then normalCDF d1 else normalCDF d1 - 1.0

/-- `BlackScholesModel::calculateGamma`, including its guard. -/
def calculateGamma (S sigma T d1 : ℝ) : ℝ :=
  if S ≤ 0 ∨ sigma ≤ 0 ∨ T ≤ 0 then 0
  else normalPDF d1 / (S * sigma * Real.sqrt T)

/-- `BlackScholesModel::calculateVega`, including its guard. -/
def calculateVega (S T d1 : ℝ) : ℝ :=
  if S ≤ 0 ∨ T ≤ 0 then 0
  else S * normalPDF d1 * Real.sqrt T

/-- `BlackScholesModel::calculateTheta`, including its guard. -/
def calculateTheta (isCall : Bool) (S K r sigma T d1 d2 : ℝ) : ℝ :=
  if T ≤ 0 then 0
  else
    (-S * normalPDF d1 * sigma / (2.0 * Real.sqrt T)) +
      (if isCall then -(r * K * Real.exp (-r * T) * normalCDF d2)
       else r * K * Real.exp (-r * T) * normalCDF (-d2))

/-- `BlackScholesModel::calculateRho`, including its guard. -/
def calculateRho (isCall : Bool) (K r T d2 : ℝ) : ℝ :=
  if T ≤ 0 then 0
  else if isCall then K * T * Real.exp (-r * T) * normalCDF d2
  else -(K * T * Real.exp (-r * T) * normalCDF (-d2))

/-- `BlackScholesModel::price` (`unnamed/part_001` and `main.cpp`): the
three-regime dispatch, writing only the `price` field of a freshly
default-initialised `PricingResult`. -/
def price (o : Option) (md : MarketData) : PricingResult :=
  let S := md.spot
  let K := o.strike
  let r := md.riskFreeRate
  let sigma := md.volatility
  let T := o.timeToExpiration
  if T = 0 then
    if o.isCall then { price := max (S - K) 0 }
    else { price := max (K - S) 0 }
  else if sigma = 0 then
    let discountFactor := Real.exp (-r * T)
    if o.isCall then { price := max (S - K * discountFactor) 0 }
    else { price := max (K * discountFactor - S) 0 }
  else
    let d1 := calculateD1 S K r sigma T
    let d2 := calculateD2 d1 sigma T
    if o.isCall then { price := calculateCallPrice S K r T d1 d2 }
    else { price := calculatePutPrice S K r T d1 d2 }

/-- `BlackScholesModel::priceWithGreeks` (`main.cpp`): same regimes, also
populating the sensitivities. -/
def priceWithGreeks (o : Option) (md : MarketData) : PricingResult :=
  let S := md.spot
  let K := o.strike
  let r := md.riskFreeRate
  let sigma := md.volatility
  let T := o.timeToExpiration
  if T = 0 then
    if o.isCall then
      { price := max (S - K) 0, delta := if K < S then 1.0 else 0.0 }
    else
      { price := max (K - S) 0, delta := if S < K then -1.0 else 0.0 }
  else if sigma = 0 then
    let discountFactor := Real.exp (-r * T)
    if o.isCall then
      { price := max (S - K * discountFactor) 0
        delta := if K * discountFactor < S then 1.0 else 0.0 }
    else
      { price := max (K * discountFactor - S) 0
        delta := if S < K * discountFactor then -1.0 else 0.0 }
  else
    let d1 := calculateD1 S K r sigma T
    let d2 := calculateD2 d1 sigma T
    { price :=
        if o.isCall then calculateCallPrice S K r T d1 d2
        else calculatePutPrice S K r T d1 d2
      delta := calculateDelta o.isCall d1
      gamma := calculateGamma S sigma T d1
      vega := calculateVega S T d1
      theta := calculateTheta o.isCall S K r sigma T d1 d2
      rho := calculateRho o.isCall K r T d2 }

/-! ## Spec-side formulas

These definitions follow the spec's words (§4.3, general regime) and are
compared with the source-derived functions above. -/

/-- Spec: `d1 = (ln(spot/strike) + (rate + 0.5*volatility²)*time) /
(volatility * sqrt(time))`. -/
def specD1 (S K r sigma T : ℝ) : ℝ :=
  (Real.log (S / K) + (r + 0.5 * sigma ^ 2) * T) / (sigma * Real.sqrt T)

/-- Spec: `d2 = d1 − volatility*sqrt(time)`. -/
def specD2 (S K r sigma T : ℝ) : ℝ :=
  specD1 S K r sigma T - sigma * Real.sqrt T

/-- Spec: call price `spot*N(d1) − strike*exp(−rate*time)*N(d2)`, with `N`
evaluated — per the spec's numerical policy — by the program's fixed
coefficient approximation `normalCDF`. -/
def specCallPrice (S K r sigma T : ℝ) : ℝ :=
  S * normalCDF (specD1 S K r sigma T) -
    K * Real.exp (-(r * T)) * normalCDF (specD2 S K r sigma T)

/-- Spec: put price `strike*exp(−rate*time)*N(−d2) − spot*N(−d1)`. -/
def specPutPrice (S K r sigma T : ℝ) : ℝ :=
  K * Real.exp (-(r * T)) * normalCDF (-specD2 S K r sigma T) -
    S * normalCDF (-specD1 S K r sigma T)

/-- Spec: delta `N(d1)` for a call, `N(d1) − 1` for a put. -/
def specDelta (isCall : Bool) (S K r sigma T : ℝ) : ℝ :=
  if isCall then normalCDF (specD1 S K r sigma T)
  else normalCDF (specD1 S K r sigma T) - 1

/-- Spec: gamma `φ(d1) / (spot * volatility * sqrt(time))`, with `φ` the
program's density `normalPDF`. -/
def specGamma (S K r sigma T : ℝ) : ℝ :=
  normalPDF (specD1 S K r sigma T) / (S * sigma * Real.sqrt T)

/-- Spec: vega `spot * φ(d1) * sqrt(time)`. -/
def specVega (S K r sigma T : ℝ) : ℝ :=
  S * normalPDF (specD1 S K r sigma T) * Real.sqrt T

/-- Spec: theta `−spot*φ(d1)*volatility/(2*sqrt(time))` minus
`rate*strike*discount*N(d2)` for a call, plus `rate*strike*discount*N(−d2)`
for a put. -/
def specTheta (isCall : Bool) (S K r sigma T : ℝ) : ℝ :=
  if isCall then
    -S * normalPDF (specD1 S K r sigma T) * sigma / (2 * Real.sqrt T) -
      r * K * Real.exp (-(r * T)) * normalCDF (specD2 S K r sigma T)
  else
    -S * normalPDF (specD1 S K r sigma T) * sigma / (2 * Real.sqrt T) +
      r * K * Real.exp (-(r * T)) * normalCDF (-specD2 S K r sigma T)

/-- Spec: rho `strike*time*discount*N(d2)` for a call,
`−strike*time*discount*N(−d2)` for a put. -/
def specRho (isCall : Bool) (S K r sigma T : ℝ) : ℝ :=
  if isCall then
    K * T * Real.exp (-(r * T)) * normalCDF (specD2 S K r sigma T)
  else
    -(K * T * Real.exp (-(r * T)) * normalCDF (-specD2 S K r sigma T))

/-! ## Frame of the plain `price` operation (C10) -/

/-- C10: the plain `price` writes only the `price` field: every sensitivity
field of its result keeps the default `0.0`, so `hasGreeks()` is false on
every result produced by `price`, in every regime. -/
theorem price_no_greeks (o : Option) (md : MarketData) :
    (price o md).delta = 0 ∧ (price o md).gamma = 0 ∧ (price o md).vega = 0 ∧
      (price o md).theta = 0 ∧ (price o md).rho = 0 ∧
      ¬ (price o md).hasGreeks := by
  have h : (price o md).delta = 0 ∧ (price o md).gamma = 0 ∧
      (price o md).vega = 0 ∧ (price o md).theta = 0 ∧ (price o md).rho = 0 := by
    unfold price
    simp only [apply_ite PricingResult.delta, apply_ite PricingResult.gamma,
      apply_ite PricingResult.vega, apply_ite PricingResult.theta,
      apply_ite PricingResult.rho]
    simp
  refine ⟨h.1, h.2.1, h.2.2.1, h.2.2.2.1, h.2.2.2.2, ?_⟩
  simp [PricingResult.hasGreeks, h.1, h.2.1, h.2.2.1, h.2.2.2.1, h.2.2.2.2]

/-! ## The at-expiration regime (C2) -/

/-- C2: with `timeToExpiration == 0` (checked first), `price` returns the
intrinsic value, and `priceWithGreeks` returns the same price with delta 1/0
(call, by `spot > strike`) resp. −1/0 (put, by `spot < strike`) and all other
Greeks `0.0`. -/
theorem price_at_expiration (o : Option) (md : MarketData)
    (hT : o.timeToExpiration = 0) :
    ((price o md).price = if o.isCall then max (md.spot - o.strike) 0
        else max (o.strike - md.spot) 0) ∧
      (priceWithGreeks o md).price = (price o md).price ∧
      (priceWithGreeks o md).delta =
        (if o.isCall then (if o.strike < md.spot then (1 : ℝ) else 0)
         else (if md.spot < o.strike then -1 else 0)) ∧
      (priceWithGreeks o md).gamma = 0 ∧ (priceWithGreeks o md).vega = 0 ∧
      (priceWithGreeks o md).theta = 0 ∧ (priceWithGreeks o md).rho = 0 := by
  unfold price priceWithGreeks
  simp only [hT, if_pos rfl]
  cases hc : o.isCall <;> simp <;> split_ifs <;> norm_num

/-- Witness for C2: a call at expiration, `S=110, K=100`. -/
theorem price_at_expiration_witness :
    (Option.mk OptionType.Call 100 0).timeToExpiration = 0 ∧
      (((price ⟨OptionType.Call, 100, 0⟩ ⟨110, 0.05, 0.2⟩).price =
          if (Option.mk OptionType.Call 100 0).isCall then
            max ((110 : ℝ) - 100) 0 else max ((100 : ℝ) - 110) 0) ∧
        (priceWithGreeks ⟨OptionType.Call, 100, 0⟩ ⟨110, 0.05, 0.2⟩).price =
          (price ⟨OptionType.Call, 100, 0⟩ ⟨110, 0.05, 0.2⟩).price ∧
        (priceWithGreeks ⟨OptionType.Call, 100, 0⟩ ⟨110, 0.05, 0.2⟩).delta =
          (if (Option.mk OptionType.Call 100 0).isCall then
            (if (100 : ℝ) < 110 then (1 : ℝ) else 0)
           else (if (110 : ℝ) < 100 then -1 else 0)) ∧
        (priceWithGreeks ⟨OptionType.Call, 100, 0⟩ ⟨110, 0.05, 0.2⟩).gamma = 0 ∧
        (priceWithGreeks ⟨OptionType.Call, 100, 0⟩ ⟨110, 0.05, 0.2⟩).vega = 0 ∧
        (priceWithGreeks ⟨OptionType.Call, 100, 0⟩ ⟨110, 0.05, 0.2⟩).theta = 0 ∧
        (priceWithGreeks ⟨OptionType.Call, 100, 0⟩ ⟨110, 0.05, 0.2⟩).rho = 0) :=
  ⟨rfl, price_at_expiration ⟨OptionType.Call, 100, 0⟩ ⟨110, 0.05, 0.2⟩ rfl⟩

/-! ## The zero-volatility regime (C3) -/

/-- C3: with `timeToExpiration > 0` and `volatility == 0`, `price` returns the
discounted intrinsic value with `discount = exp(-rate*time)`, and
`priceWithGreeks` returns the same price with delta 1/0 (call, by
`spot > strike*discount`) resp. −1/0 (put) and gamma, vega, theta, rho
all `0.0`. -/
theorem price_zero_volatility (o : Option) (md : MarketData)
    (hT : 0 < o.timeToExpiration) (hv : md.volatility = 0) :
    ((price o md).price =
        if o.isCall then
          max (md.spot -
            o.strike * Real.exp (-md.riskFreeRate * o.timeToExpiration)) 0
        else
          max (o.strike * Real.exp (-md.riskFreeRate * o.timeToExpiration) -
            md.spot) 0) ∧
      (priceWithGreeks o md).price = (price o md).price ∧
      (priceWithGreeks o md).delta =
        (if o.isCall then
          (if o.strike * Real.exp (-md.riskFreeRate * o.timeToExpiration) <
              md.spot then (1 : ℝ) else 0)
         else
          (if md.spot <
              o.strike * Real.exp (-md.riskFreeRate * o.timeToExpiration)
           then -1 else 0)) ∧
      (priceWithGreeks o md).gamma = 0 ∧ (priceWithGreeks o md).vega = 0 ∧
      (priceWithGreeks o md).theta = 0 ∧ (priceWithGreeks o md).rho = 0 := by
  have hT0 : o.timeToExpiration ≠ 0 := ne_of_gt hT
  unfold price priceWithGreeks
  simp only [hv, if_neg hT0, if_pos rfl]
  cases hc : o.isCall <;> simp <;> split_ifs <;> norm_num

/-- Witness for C3: a call with zero volatility, `S=110, K=100, r=0.05,
T=0.5`. -/
theorem price_zero_volatility_witness :
    (0 : ℝ) < (Option.mk OptionType.Call 100 0.5).timeToExpiration ∧
      (((price ⟨OptionType.Call, 100, 0.5⟩ ⟨110, 0.05, 0⟩).price =
          if (Option.mk OptionType.Call 100 0.5).isCall then
            max ((110 : ℝ) - 100 * Real.exp (-(0.05 : ℝ) * 0.5)) 0
          else max ((100 : ℝ) * Real.exp (-(0.05 : ℝ) * 0.5) - 110) 0) ∧
        (priceWithGreeks ⟨OptionType.Call, 100, 0.5⟩ ⟨110, 0.05, 0⟩).price =
          (price ⟨OptionType.Call, 100, 0.5⟩ ⟨110, 0.05, 0⟩).price ∧
        (priceWithGreeks ⟨OptionType.Call, 100, 0.5⟩ ⟨110, 0.05, 0⟩).delta =
          (if (Option.mk OptionType.Call 100 0.5).isCall then
            (if (100 : ℝ) * Real.exp (-(0.05 : ℝ) * 0.5) < 110 then (1 : ℝ)
             else 0)
           else
            (if (110 : ℝ) < 100 * Real.exp (-(0.05 : ℝ) * 0.5) then -1
             else 0)) ∧
        (priceWithGreeks ⟨OptionType.Call, 100, 0.5⟩ ⟨110, 0.05, 0⟩).gamma =
          0 ∧
        (priceWithGreeks ⟨OptionType.Call, 100, 0.5⟩ ⟨110, 0.05, 0⟩).vega =
          0 ∧
        (priceWithGreeks ⟨OptionType.Call, 100, 0.5⟩ ⟨110, 0.05, 0⟩).theta =
          0 ∧
        (priceWithGreeks ⟨OptionType.Call, 100, 0.5⟩ ⟨110, 0.05, 0⟩).rho =
          0) :=
  ⟨by norm_num,
    price_zero_volatility ⟨OptionType.Call, 100, 0.5⟩ ⟨110, 0.05, 0⟩
      (by norm_num) rfl⟩

/-! ## The general regime (C1, C4) -/

theorem calculateD1_eq_specD1 (S K r sigma T : ℝ) (hS : 0 < S) (hK : 0 < K)
    (hT : 0 < T) (hv : 0 < sigma) :
    calculateD1 S K r sigma T = specD1 S K r sigma T := by
  rw [calculateD1, if_neg, specD1]
  · ring_nf
  · push_neg
    exact ⟨hS, hK, hT, hv⟩

theorem calculateD2_specD1 (S K r sigma T : ℝ) :
    calculateD2 (specD1 S K r sigma T) sigma T = specD2 S K r sigma T := rfl

/-- C1: in the general regime (`timeToExpiration > 0`, `volatility > 0`), both
`price` and `priceWithGreeks` set the price field to the Black–Scholes closed
form, with `d1`, `d2` as in the spec and `N` the program's `normalCDF`. -/
theorem price_general_regime_closed_form (o : Option) (md : MarketData)
    (hS : 0 < md.spot) (hK : 0 < o.strike) (hT : 0 < o.timeToExpiration)
    (hv : 0 < md.volatility) :
    (price o md).price =
      (if o.isCall then
        specCallPrice md.spot o.strike md.riskFreeRate md.volatility
          o.timeToExpiration
       else
        specPutPrice md.spot o.strike md.riskFreeRate md.volatility
          o.timeToExpiration) ∧
    (priceWithGreeks o md).price = (price o md).price := by
  have hT0 : o.timeToExpiration ≠ 0 := ne_of_gt hT
  have hv0 : md.volatility ≠ 0 := ne_of_gt hv
  have hd1 := calculateD1_eq_specD1 md.spot o.strike md.riskFreeRate
    md.volatility o.timeToExpiration hS hK hT hv
  have hd2 := calculateD2_specD1 md.spot o.strike md.riskFreeRate
    md.volatility o.timeToExpiration
  unfold price priceWithGreeks
  simp only [if_neg hT0, if_neg hv0, hd1, hd2]
  cases hc : o.isCall <;>
    simp [specCallPrice, specPutPrice, calculateCallPrice, calculatePutPrice,
      neg_mul]

/-- Witness for C1 at `S=100, K=105, r=0.05, σ=0.2, T=0.5`, call. -/
theorem price_general_regime_closed_form_witness :
    (0 : ℝ) < 100 ∧ (0 : ℝ) < 105 ∧ (0 : ℝ) < 0.5 ∧ (0 : ℝ) < 0.2 ∧
      ((price ⟨OptionType.Call, 105, 0.5⟩ ⟨100, 0.05, 0.2⟩).price =
        (if (Option.mk OptionType.Call 105 0.5).isCall then
          specCallPrice 100 105 0.05 0.2 0.5
         else specPutPrice 100 105 0.05 0.2 0.5) ∧
       (priceWithGreeks ⟨OptionType.Call, 105, 0.5⟩ ⟨100, 0.05, 0.2⟩).price =
        (price ⟨OptionType.Call, 105, 0.5⟩ ⟨100, 0.05, 0.2⟩).price) :=
  ⟨by norm_num, by norm_num, by norm_num, by norm_num,
    price_general_regime_closed_form ⟨OptionType.Call, 105, 0.5⟩
      ⟨100, 0.05, 0.2⟩ (by norm_num) (by norm_num) (by norm_num) (by norm_num)⟩

/-- C4: in the general regime, `priceWithGreeks` populates all five
sensitivities with the spec's formulas (`φ` and `N` being the program's
`normalPDF` and `normalCDF`). -/
theorem greeks_general_regime (o : Option) (md : MarketData)
    (hS : 0 < md.spot) (hK : 0 < o.strike) (hT : 0 < o.timeToExpiration)
    (hv : 0 < md.volatility) :
    (priceWithGreeks o md).delta =
        specDelta o.isCall md.spot o.strike md.riskFreeRate md.volatility
          o.timeToExpiration ∧
      (priceWithGreeks o md).gamma =
        specGamma md.spot o.strike md.riskFreeRate md.volatility
          o.timeToExpiration ∧
      (priceWithGreeks o md).vega =
        specVega md.spot o.strike md.riskFreeRate md.volatility
          o.timeToExpiration ∧
      (priceWithGreeks o md).theta =
        specTheta o.isCall md.spot o.strike md.riskFreeRate md.volatility
          o.timeToExpiration ∧
      (priceWithGreeks o md).rho =
        specRho o.isCall md.spot o.strike md.riskFreeRate md.volatility
          o.timeToExpiration := by
  have hT0 : o.timeToExpiration ≠ 0 := ne_of_gt hT
  have hv0 : md.volatility ≠ 0 := ne_of_gt hv
  have hT' : ¬ o.timeToExpiration ≤ 0 := not_le.mpr hT
  have hd1 := calculateD1_eq_specD1 md.spot o.strike md.riskFreeRate
    md.volatility o.timeToExpiration hS hK hT hv
  have hd2 := calculateD2_specD1 md.spot o.strike md.riskFreeRate
    md.volatility o.timeToExpiration
  have hgG : ¬ (md.spot ≤ 0 ∨ md.volatility ≤ 0 ∨ o.timeToExpiration ≤ 0) := by
    push_neg
    exact ⟨hS, hv, hT⟩
  have hgV : ¬ (md.spot ≤ 0 ∨ o.timeToExpiration ≤ 0) := by
    push_neg
    exact ⟨hS, hT⟩
  unfold priceWithGreeks
  simp only [if_neg hT0, if_neg hv0, hd1, hd2]
  refine ⟨?_, ?_, ?_, ?_, ?_⟩
  · cases hc : o.isCall <;>
      (simp [calculateDelta, specDelta]; try norm_num)
  · simp [calculateGamma, specGamma, if_neg hgG]
  · simp [calculateVega, specVega, if_neg hgV]
  · cases hc : o.isCall <;>
      simp [calculateTheta, specTheta, if_neg hT', neg_mul] <;> ring
  · cases hc : o.isCall <;>
      simp [calculateRho, specRho, if_neg hT', neg_mul]

/-- Witness for C4 at `S=100, K=105, r=0.05, σ=0.2, T=0.5`, put. -/
theorem greeks_general_regime_witness :
    (0 : ℝ) < 100 ∧ (0 : ℝ) < 105 ∧ (0 : ℝ) < 0.5 ∧ (0 : ℝ) < 0.2 ∧
      ((priceWithGreeks ⟨OptionType.Put, 105, 0.5⟩ ⟨100, 0.05, 0.2⟩).delta =
          specDelta false 100 105 0.05 0.2 0.5 ∧
        (priceWithGreeks ⟨OptionType.Put, 105, 0.5⟩ ⟨100, 0.05, 0.2⟩).gamma =
          specGamma 100 105 0.05 0.2 0.5 ∧
        (priceWithGreeks ⟨OptionType.Put, 105, 0.5⟩ ⟨100, 0.05, 0.2⟩).vega =
          specVega 100 105 0.05 0.2 0.5 ∧
        (priceWithGreeks ⟨OptionType.Put, 105, 0.5⟩ ⟨100, 0.05, 0.2⟩).theta =
          specTheta false 100 105 0.05 0.2 0.5 ∧
        (priceWithGreeks ⟨OptionType.Put, 105, 0.5⟩ ⟨100, 0.05, 0.2⟩).rho =
          specRho false 100 105 0.05 0.2 0.5) :=
  ⟨by norm_num, by norm_num, by norm_num, by norm_num,
    greeks_general_regime ⟨OptionType.Put, 105, 0.5⟩ ⟨100, 0.05, 0.2⟩
      (by norm_num) (by norm_num) (by norm_num) (by norm_num)⟩

/-! ## Error handling (C7) -/

/-- C7: the invalid-argument condition occurs exactly at construction of the
contract descriptor (`strike ≤ 0` or `timeToExpiration < 0`) and of the
market snapshot (`spot ≤ 0` or `volatility < 0`); on inputs satisfying those
invariants the engine reaches `calculateD1` only in the general regime, where
the defensive guard condition is false and `d1` is the genuine quotient. -/
theorem errors_only_at_boundary :
    (∀ kind strike T, (∃ o, mkOption kind strike T = Except.ok o) ↔
        0 < strike ∧ 0 ≤ T) ∧
      (∀ spot rate vol, (∃ md, mkMarketData spot rate vol = Except.ok md) ↔
        0 < spot ∧ 0 ≤ vol) ∧
      (∀ S K r sigma T, 0 < S → 0 < K → 0 < T → 0 < sigma →
        ¬ (S ≤ 0 ∨ K ≤ 0 ∨ T ≤ 0 ∨ sigma ≤ 0) ∧
          calculateD1 S K r sigma T =
            (Real.log (S / K) + (r + 0.5 * sigma * sigma) * T) /
              (sigma * Real.sqrt T)) := by
  refine ⟨?_, ?_, ?_⟩
  · intro kind strike T
    unfold mkOption
    split_ifs with h1 h2
    · refine ⟨fun h => ?_, fun h => absurd h.1 (not_lt.mpr h1)⟩
      obtain ⟨o, ho⟩ := h
      simp at ho
    · refine ⟨fun h => ?_, fun h => absurd h.2 (not_le.mpr h2)⟩
      obtain ⟨o, ho⟩ := h
      simp at ho
    · exact ⟨fun _ => ⟨not_le.mp h1, not_lt.mp h2⟩, fun _ => ⟨_, rfl⟩⟩
  · intro spot rate vol
    unfold mkMarketData
    split_ifs with h1 h2
    · refine ⟨fun h => ?_, fun h => absurd h.1 (not_lt.mpr h1)⟩
      obtain ⟨o, ho⟩ := h
      simp at ho
    · refine ⟨fun h => ?_, fun h => absurd h.2 (not_le.mpr h2)⟩
      obtain ⟨o, ho⟩ := h
      simp at ho
    · exact ⟨fun _ => ⟨not_le.mp h1, not_lt.mp h2⟩, fun _ => ⟨_, rfl⟩⟩
  · intro S K r sigma T hS hK hT hv
    have hg : ¬ (S ≤ 0 ∨ K ≤ 0 ∨ T ≤ 0 ∨ sigma ≤ 0) := by
      push_neg
      exact ⟨hS, hK, hT, hv⟩
    exact ⟨hg, by rw [calculateD1, if_neg hg]⟩

/-- Witness for C7: instantiates each component at concrete inputs. -/
theorem errors_only_at_boundary_witness :
    ((∃ o, mkOption OptionType.Call 100 1 = Except.ok o) ↔
        (0 : ℝ) < 100 ∧ (0 : ℝ) ≤ 1) ∧
      ((∃ md, mkMarketData 100 0.05 0.2 = Except.ok md) ↔
        (0 : ℝ) < 100 ∧ (0 : ℝ) ≤ 0.2) ∧
      (¬ ((100 : ℝ) ≤ 0 ∨ (100 : ℝ) ≤ 0 ∨ (1 : ℝ) ≤ 0 ∨ (0.2 : ℝ) ≤ 0) ∧
        calculateD1 100 100 0.05 0.2 1 =
          (Real.log (100 / 100) + (0.05 + 0.5 * 0.2 * 0.2) * 1) /
            (0.2 * Real.sqrt 1)) :=
  ⟨errors_only_at_boundary.1 OptionType.Call 100 1,
    errors_only_at_boundary.2.1 100 0.05 0.2,
    errors_only_at_boundary.2.2 100 100 0.05 0.2 1 (by norm_num) (by norm_num)
      (by norm_num) (by norm_num)⟩

/-! ## Branch values of `normalCDF` -/

/-- The value `normalCDF (-u)` for `u ≥ 0` (the negative branch). -/
def lowerN (u : ℝ) : ℝ :=
  0.5 * (asPoly (1 / (1 + p * u)) * Real.exp (-(u * u)))

theorem normalCDF_of_neg (x : ℝ) (hx : x < 0) : normalCDF x = lowerN (-x) := by
  simp only [normalCDF, if_pos hx, lowerN]
  ring_nf

theorem normalCDF_of_nonneg (x : ℝ) (hx : 0 ≤ x) :
    normalCDF x = 1 - lowerN x := by
  have hx' : ¬ x < 0 := not_lt.mpr hx
  simp only [normalCDF, if_neg hx', lowerN]
  ring_nf

/-- The exact value of the Horner chain at `t = 1`. -/
theorem asPoly_one : asPoly 1 = 0.999999999 := by
  norm_num [asPoly, a1, a2, a3, a4, a5]

theorem normalCDF_zero : normalCDF 0 = 0.5000000005 := by
  rw [normalCDF_of_nonneg 0 le_rfl, lowerN]
  norm_num [asPoly_one]

/-- Away from `0` the two branches of `normalCDF` pair up exactly. -/
theorem normalCDF_add_neg (x : ℝ) (hx : x ≠ 0) :
    normalCDF x + normalCDF (-x) = 1 := by
  rcases lt_or_gt_of_ne hx with h | h
  · rw [normalCDF_of_neg x h, normalCDF_of_nonneg (-x) (by linarith)]
    ring
  · rw [normalCDF_of_nonneg x (le_of_lt h), normalCDF_of_neg (-x) (by linarith),
      neg_neg]
    ring

/-! ## Regime unfolding helpers for `price` -/

theorem price_call_general (K S r sigma T : ℝ) (hT0 : T ≠ 0)
    (hv0 : sigma ≠ 0) :
    (price ⟨OptionType.Call, K, T⟩ ⟨S, r, sigma⟩).price =
      calculateCallPrice S K r T (calculateD1 S K r sigma T)
        (calculateD2 (calculateD1 S K r sigma T) sigma T) := by
  unfold price
  simp only [if_neg hT0, if_neg hv0]
  rfl

theorem price_put_general (K S r sigma T : ℝ) (hT0 : T ≠ 0)
    (hv0 : sigma ≠ 0) :
    (price ⟨OptionType.Put, K, T⟩ ⟨S, r, sigma⟩).price =
      calculatePutPrice S K r T (calculateD1 S K r sigma T)
        (calculateD2 (calculateD1 S K r sigma T) sigma T) := by
  unfold price
  simp only [if_neg hT0, if_neg hv0]
  rfl

theorem price_call_zero_vol (K S r T : ℝ) (hT0 : T ≠ 0) :
    (price ⟨OptionType.Call, K, T⟩ ⟨S, r, 0⟩).price =
      max (S - K * Real.exp (-r * T)) 0 := by
  unfold price
  simp only [if_neg hT0]
  rfl

theorem price_put_zero_vol (K S r T : ℝ) (hT0 : T ≠ 0) :
    (price ⟨OptionType.Put, K, T⟩ ⟨S, r, 0⟩).price =
      max (K * Real.exp (-r * T) - S) 0 := by
  unfold price
  simp only [if_neg hT0]
  rfl

/-- The discount and the Gaussian quotient recombine to `S/K`:
`exp(-rT) * exp((d1² - d2²)/2) = S/K`. -/
theorem exp_dsq (S K r sigma T : ℝ) (hS : 0 < S) (hK : 0 < K) (hT : 0 < T)
    (hv : 0 < sigma) :
    Real.exp (-r * T) *
      Real.exp ((calculateD1 S K r sigma T * calculateD1 S K r sigma T -
        calculateD2 (calculateD1 S K r sigma T) sigma T *
          calculateD2 (calculateD1 S K r sigma T) sigma T) / 2) = S / K := by
  have hstpos : 0 < Real.sqrt T := Real.sqrt_pos.mpr hT
  have hst2 : Real.sqrt T ^ 2 = T := Real.sq_sqrt hT.le
  have hd1 : calculateD1 S K r sigma T * (sigma * Real.sqrt T) =
      Real.log (S / K) + (r + 0.5 * sigma * sigma) * T := by
    rw [calculateD1, if_neg (by push_neg; exact ⟨hS, hK, hT, hv⟩)]
    field_simp
  have harg : (calculateD1 S K r sigma T * calculateD1 S K r sigma T -
      calculateD2 (calculateD1 S K r sigma T) sigma T *
        calculateD2 (calculateD1 S K r sigma T) sigma T) / 2 =
      Real.log (S / K) + r * T := by
    rw [calculateD2]
    linear_combination hd1 - 0.5 * sigma * sigma * hst2
  rw [harg, ← Real.exp_add,
    show -r * T + (Real.log (S / K) + r * T) = Real.log (S / K) by ring,
    Real.exp_log (div_pos hS hK)]

/-! ## Put–call parity (C6)

The two branch values of `normalCDF` pair to `1` exactly, except at the
argument `0`, where `N(0) + N(-0) = 1 + 10⁻⁹`.  Since `d1 = 0` forces the
parity defect `spot * 10⁻⁹`, the spec's universal `0.01` tolerance fails for
large spots; it holds whenever spot is at most `10⁷` (the `d2 = 0` defect is
`discountedStrike * 10⁻⁹`, and there `discountedStrike = spot·e^(−d1²/2)`
is at most the spot). -/

theorem pairing_defect (x : ℝ) :
    0 ≤ normalCDF x + normalCDF (-x) - 1 ∧
      normalCDF x + normalCDF (-x) - 1 ≤ 0.000000001 := by
  rcases eq_or_ne x 0 with rfl | hx
  · rw [neg_zero, normalCDF_zero]
    norm_num
  · rw [normalCDF_add_neg x hx]
    norm_num

/-- C6 (amended): put–call parity holds within the absolute tolerance `0.01`
for all valid inputs with `time > 0`, provided `spot ≤ 10⁷` (the
counterexample forces this bound: the defect is `spot * 10⁻⁹` when `d1 = 0`,
`discountedStrike * 10⁻⁹` when `d2 = 0` — where the discounted strike equals
`spot·e^(−d1²/2) ≤ spot` — and `0` otherwise). -/
theorem put_call_parity_amended (K S r sigma T : ℝ) (hK : 0 < K) (hS : 0 < S)
    (hT : 0 < T) (hv : 0 ≤ sigma) (hSb : S ≤ 10 ^ 7) :
    |(price ⟨OptionType.Call, K, T⟩ ⟨S, r, sigma⟩).price -
        (price ⟨OptionType.Put, K, T⟩ ⟨S, r, sigma⟩).price -
        (S - K * Real.exp (-r * T))| ≤ 0.01 := by
  have hT0 : T ≠ 0 := ne_of_gt hT
  rcases eq_or_lt_of_le hv with rfl | hv0
  · rw [price_call_zero_vol K S r T hT0, price_put_zero_vol K S r T hT0]
    have hmax : max (S - K * Real.exp (-r * T)) 0 -
        max (K * Real.exp (-r * T) - S) 0 = S - K * Real.exp (-r * T) := by
      rcases le_total (S - K * Real.exp (-r * T)) 0 with h | h
      · rw [max_eq_right h, max_eq_left (by linarith : (0 : ℝ) ≤ K * Real.exp (-r * T) - S)]
        ring
      · rw [max_eq_left h, max_eq_right (by linarith : K * Real.exp (-r * T) - S ≤ 0)]
        ring
    rw [hmax]
    norm_num
  · rw [price_call_general K S r sigma T hT0 (ne_of_gt hv0),
      price_put_general K S r sigma T hT0 (ne_of_gt hv0)]
    set d1v := calculateD1 S K r sigma T with hd1def
    set d2v := calculateD2 d1v sigma T with hd2def
    have hlt : d2v < d1v := by
      rw [hd2def, calculateD2]
      have : 0 < sigma * Real.sqrt T := mul_pos hv0 (Real.sqrt_pos.mpr hT)
      linarith
    rw [calculateCallPrice, calculatePutPrice]
    set D := Real.exp (-r * T) with hD
    have hDpos : 0 < D := Real.exp_pos _
    have hKD : 0 < K * D := mul_pos hK hDpos
    rcases eq_or_ne d1v 0 with h1 | h1
    · have h2 : d2v ≠ 0 := by
        rw [h1] at hlt
        exact ne_of_lt hlt
      have e2 : normalCDF d2v + normalCDF (-d2v) = 1 := normalCDF_add_neg d2v h2
      have e1 := pairing_defect d1v
      have hNN : normalCDF (-d2v) = 1 - normalCDF d2v := by linarith
      have hsimp : S * normalCDF d1v - K * D * normalCDF d2v -
          (K * D * normalCDF (-d2v) - S * normalCDF (-d1v)) - (S - K * D) =
          S * (normalCDF d1v + normalCDF (-d1v) - 1) := by
        rw [hNN]
        ring
      have hub : S * (normalCDF d1v + normalCDF (-d1v) - 1) ≤ 0.01 := by
        calc S * (normalCDF d1v + normalCDF (-d1v) - 1) ≤
            10 ^ 7 * 0.000000001 := mul_le_mul hSb e1.2 e1.1 (by norm_num)
          _ ≤ 0.01 := by norm_num
      have hlb : 0 ≤ S * (normalCDF d1v + normalCDF (-d1v) - 1) :=
        mul_nonneg hS.le e1.1
      rw [hsimp, abs_le]
      constructor <;> linarith
    · have e1 : normalCDF d1v + normalCDF (-d1v) = 1 := normalCDF_add_neg d1v h1
      have e2 := pairing_defect d2v
      have hNN : normalCDF (-d1v) = 1 - normalCDF d1v := by linarith
      have hsimp : S * normalCDF d1v - K * D * normalCDF d2v -
          (K * D * normalCDF (-d2v) - S * normalCDF (-d1v)) - (S - K * D) =
          -((K * D) * (normalCDF d2v + normalCDF (-d2v) - 1)) := by
        rw [hNN]
        ring
      have hub : (K * D) * (normalCDF d2v + normalCDF (-d2v) - 1) ≤ 0.01 := by
        rcases eq_or_ne d2v 0 with h2 | h2
        · -- the only nonzero case: here K·e^(−rT) = S·e^(−d1²/2) ≤ S ≤ 10⁷
          have hEq := exp_dsq S K r sigma T hS hK hT hv0
          rw [← hd1def, ← hd2def, h2, ← hD] at hEq
          rw [eq_div_iff (ne_of_gt hK)] at hEq
          have hE1 : (1 : ℝ) ≤ Real.exp ((d1v * d1v - 0 * 0) / 2) := by
            rw [show (1 : ℝ) = Real.exp 0 from Real.exp_zero.symm]
            apply Real.exp_le_exp.mpr
            nlinarith [sq_nonneg d1v]
          have hKDle : K * D ≤ S := by
            nlinarith [mul_nonneg hKD.le (by linarith : (0 : ℝ) ≤
              Real.exp ((d1v * d1v - 0 * 0) / 2) - 1)]
          calc (K * D) * (normalCDF d2v + normalCDF (-d2v) - 1) ≤
              S * 0.000000001 := mul_le_mul hKDle e2.2 e2.1 hS.le
            _ ≤ 10 ^ 7 * 0.000000001 :=
              mul_le_mul_of_nonneg_right hSb (by norm_num)
            _ ≤ 0.01 := by norm_num
        · rw [normalCDF_add_neg d2v h2]
          norm_num
      have hlb : 0 ≤ (K * D) * (normalCDF d2v + normalCDF (-d2v) - 1) :=
        mul_nonneg hKD.le e2.1
      rw [hsimp, abs_le]
      constructor <;> linarith

/-- Witness for the amended C6 at `S=100, K=105, r=0, σ=0.2, T=0.5`. -/
theorem put_call_parity_amended_witness :
    (0 : ℝ) < 105 ∧ (0 : ℝ) < 100 ∧ (0 : ℝ) < 0.5 ∧ (0 : ℝ) ≤ 0.2 ∧
      (100 : ℝ) ≤ 10 ^ 7 ∧
      |(price ⟨OptionType.Call, 105, 0.5⟩ ⟨100, 0, 0.2⟩).price -
          (price ⟨OptionType.Put, 105, 0.5⟩ ⟨100, 0, 0.2⟩).price -
          ((100 : ℝ) - 105 * Real.exp (-(0 : ℝ) * 0.5))| ≤ 0.01 :=
  ⟨by norm_num, by norm_num, by norm_num, by norm_num, by norm_num,
    put_call_parity_amended 105 100 0 0.2 0.5 (by norm_num) (by norm_num)
      (by norm_num) (by norm_num) (by norm_num)⟩

/-- C6 counterexample: at spot `10⁸`, strike `10⁸·e^(1/50)`, rate `0`,
volatility `0.2`, time `1`, the auxiliary `d1` is exactly `0`, and
`call − put − (spot − strike·discount) = 10⁸ · 10⁻⁹ = 0.1 > 0.01`, refuting
the claim's universal `0.01` tolerance. -/
theorem put_call_parity_counterexample :
    (0 : ℝ) < 10 ^ 8 * Real.exp (1 / 50) ∧ (0 : ℝ) < 10 ^ 8 ∧ (0 : ℝ) < 1 ∧
      (0 : ℝ) ≤ 0.2 ∧
      ¬ (|(price ⟨OptionType.Call, 10 ^ 8 * Real.exp (1 / 50), 1⟩
              ⟨10 ^ 8, 0, 0.2⟩).price -
            (price ⟨OptionType.Put, 10 ^ 8 * Real.exp (1 / 50), 1⟩
              ⟨10 ^ 8, 0, 0.2⟩).price -
            ((10 ^ 8 : ℝ) -
              10 ^ 8 * Real.exp (1 / 50) * Real.exp (-(0 : ℝ) * 1))| ≤ 0.01) := by
  have hKpos : (0 : ℝ) < 10 ^ 8 * Real.exp (1 / 50) :=
    mul_pos (by norm_num) (Real.exp_pos _)
  refine ⟨hKpos, by norm_num, by norm_num, by norm_num, ?_⟩
  have hd1 : calculateD1 (10 ^ 8) (10 ^ 8 * Real.exp (1 / 50)) 0 0.2 1 = 0 := by
    rw [calculateD1_eq_specD1 _ _ _ _ _ (by norm_num) hKpos (by norm_num)
      (by norm_num), specD1]
    have hratio : (10 ^ 8 : ℝ) / (10 ^ 8 * Real.exp (1 / 50)) =
        Real.exp (-(1 / 50)) := by
      rw [Real.exp_neg]
      field_simp
    rw [hratio, Real.log_exp, Real.sqrt_one]
    norm_num
  have hd2 : calculateD2 (calculateD1 (10 ^ 8) (10 ^ 8 * Real.exp (1 / 50))
      0 0.2 1) 0.2 1 = -0.2 := by
    rw [hd1, calculateD2, Real.sqrt_one]
    norm_num
  rw [price_call_general _ _ _ _ _ (by norm_num) (by norm_num),
    price_put_general _ _ _ _ _ (by norm_num) (by norm_num), hd2, hd1,
    calculateCallPrice, calculatePutPrice]
  rw [show (-(0 : ℝ) * 1) = 0 by norm_num, Real.exp_zero, neg_zero, neg_neg]
  have e2 : normalCDF 0.2 + normalCDF (-0.2) = 1 :=
    normalCDF_add_neg 0.2 (by norm_num)
  have hNN : normalCDF (-0.2) = 1 - normalCDF 0.2 := by linarith
  have heq : (10 ^ 8 : ℝ) * normalCDF 0 -
      10 ^ 8 * Real.exp (1 / 50) * 1 * normalCDF (-0.2) -
      (10 ^ 8 * Real.exp (1 / 50) * 1 * normalCDF 0.2 -
        10 ^ 8 * normalCDF 0) -
      (10 ^ 8 - 10 ^ 8 * Real.exp (1 / 50) * 1) = 0.1 := by
    rw [hNN, normalCDF_zero]
    ring
  rw [heq, abs_of_pos (by norm_num : (0 : ℝ) < 0.1)]
  norm_num

/-! ## Positivity of the price (C5)

The closed form carries no clamp, so its non-negativity must come from the
structure of the approximation: `x ↦ normalCDF x · exp(x²/2)` is strictly
monotone.  That in turn rests on strict monotonicity of the Horner chain
`asPoly` on `[0,1]`, i.e. positivity of its derivative polynomial. -/

/-- The derivative polynomial of `asPoly`. -/
def dPoly (t : ℝ) : ℝ :=
  a1 + 2 * a2 * t + 3 * a3 * t ^ 2 + 4 * a4 * t ^ 3 + 5 * a5 * t ^ 4

theorem dPoly_pos (t : ℝ) : 0 < dPoly t := by
  simp only [dPoly, a1, a2, a3, a4, a5]
  nlinarith [sq_nonneg (t * t - 0.5476331615786374 * t + 0.03661680398274738),
    sq_nonneg (t - 0.0779672373644562), sq_nonneg t, sq_nonneg (t * t)]

theorem asPoly_hasDerivAt (t : ℝ) : HasDerivAt asPoly (dPoly t) t := by
  have h : asPoly = fun x : ℝ =>
      a5 * x ^ 5 + a4 * x ^ 4 + a3 * x ^ 3 + a2 * x ^ 2 + a1 * x := by
    funext x
    rw [asPoly]
    ring
  rw [h]
  have h5 := (hasDerivAt_pow 5 t).const_mul a5
  have h4 := (hasDerivAt_pow 4 t).const_mul a4
  have h3 := (hasDerivAt_pow 3 t).const_mul a3
  have h2 := (hasDerivAt_pow 2 t).const_mul a2
  have h1 := (hasDerivAt_id t).const_mul a1
  have hsum := (((h5.add h4).add h3).add h2).add h1
  convert hsum using 1
  rw [dPoly]
  push_cast
  ring

theorem asPoly_continuous : Continuous asPoly := by
  unfold asPoly
  fun_prop

theorem asPoly_strictMonoOn : StrictMonoOn asPoly (Set.Icc (0 : ℝ) 1) := by
  apply strictMonoOn_of_deriv_pos (convex_Icc 0 1)
    asPoly_continuous.continuousOn
  intro t ht
  rw [(asPoly_hasDerivAt t).deriv]
  exact dPoly_pos t

theorem asPoly_zero : asPoly 0 = 0 := by
  norm_num [asPoly]

theorem asPoly_mono01 {t u : ℝ} (h0 : 0 ≤ t) (htu : t ≤ u) (h1 : u ≤ 1) :
    asPoly t ≤ asPoly u := by
  rcases eq_or_lt_of_le htu with rfl | h
  · exact le_refl _
  · exact (asPoly_strictMonoOn ⟨h0, le_trans htu h1⟩
      ⟨le_trans h0 htu, h1⟩ h).le

theorem asPoly_nonneg {t : ℝ} (h0 : 0 ≤ t) (h1 : t ≤ 1) : 0 ≤ asPoly t := by
  have h := asPoly_mono01 le_rfl h0 h1
  rwa [asPoly_zero] at h

theorem asPoly_le_one_val {t : ℝ} (h0 : 0 ≤ t) (h1 : t ≤ 1) :
    asPoly t ≤ 0.999999999 := by
  have h := asPoly_mono01 h0 h1 le_rfl
  rwa [asPoly_one] at h

theorem asPoly_pos {t : ℝ} (h0 : 0 < t) (h1 : t ≤ 1) : 0 < asPoly t := by
  have h := asPoly_strictMonoOn (Set.mem_Icc.mpr ⟨le_rfl, by linarith⟩)
    (Set.mem_Icc.mpr ⟨h0.le, h1⟩) h0
  rwa [asPoly_zero] at h

theorem p_pos : (0 : ℝ) < p := by
  norm_num [p]

theorem tVal_pos (u : ℝ) (hu : 0 ≤ u) : 0 < 1 / (1 + p * u) := by
  have h : 0 < 1 + p * u := by nlinarith [p_pos]
  positivity

theorem tVal_le_one (u : ℝ) (hu : 0 ≤ u) : 1 / (1 + p * u) ≤ 1 := by
  rw [div_le_one (by nlinarith [p_pos])]
  nlinarith [p_pos]

theorem tVal_lt_of_lt (u v : ℝ) (hu : 0 ≤ u) (huv : u < v) :
    1 / (1 + p * v) < 1 / (1 + p * u) := by
  apply one_div_lt_one_div_of_lt
  · nlinarith [p_pos]
  · nlinarith [p_pos]

/-- The branch value of `normalCDF x · exp(x²/2)` on the negative side. -/
def gLow (u : ℝ) : ℝ :=
  0.5 * asPoly (1 / (1 + p * u)) * Real.exp (-(u * u) / 2)

theorem gLow_pos (u : ℝ) (hu : 0 ≤ u) : 0 < gLow u := by
  rw [gLow]
  have h1 := tVal_pos u hu
  have h2 := tVal_le_one u hu
  have h3 := asPoly_pos h1 h2
  positivity

theorem gLow_le (u : ℝ) (hu : 0 ≤ u) : gLow u ≤ 0.5 * 0.999999999 := by
  rw [gLow]
  have h1 := tVal_pos u hu
  have h2 := tVal_le_one u hu
  have h3 := asPoly_nonneg h1.le h2
  have h4 := asPoly_le_one_val h1.le h2
  have h5 : Real.exp (-(u * u) / 2) ≤ 1 := by
    rw [show (1 : ℝ) = Real.exp 0 from (Real.exp_zero).symm]
    apply Real.exp_le_exp.mpr
    nlinarith [sq_nonneg u]
  nlinarith [Real.exp_pos (-(u * u) / 2)]

theorem gLow_strict_anti (u v : ℝ) (hu : 0 ≤ u) (huv : u < v) :
    gLow v < gLow u := by
  rw [gLow, gLow]
  have htv := tVal_pos v (by linarith)
  have htu := tVal_pos u hu
  have htv1 := tVal_le_one v (by linarith)
  have htu1 := tVal_le_one u hu
  have hPle : asPoly (1 / (1 + p * v)) ≤ asPoly (1 / (1 + p * u)) :=
    asPoly_mono01 htv.le (tVal_lt_of_lt u v hu huv).le htu1
  have hPv : 0 < asPoly (1 / (1 + p * v)) := asPoly_pos htv htv1
  have hElt : Real.exp (-(v * v) / 2) < Real.exp (-(u * u) / 2) := by
    apply Real.exp_lt_exp.mpr
    nlinarith
  have hEpos : 0 < Real.exp (-(v * v) / 2) := Real.exp_pos _
  nlinarith

/-- The driver of positivity and volatility monotonicity:
`hFun x = normalCDF x * exp(x²/2)`. -/
def hFun (x : ℝ) : ℝ := normalCDF x * Real.exp (x * x / 2)

theorem exp_shift (A e f g : ℝ) (h : e + f = g) :
    0.5 * (A * Real.exp e) * Real.exp f = 0.5 * A * Real.exp g := by
  rw [← h, Real.exp_add]
  ring

theorem hFun_of_neg (x : ℝ) (hx : x < 0) : hFun x = gLow (-x) := by
  rw [hFun, normalCDF_of_neg x hx, lowerN, gLow]
  exact exp_shift _ _ _ _ (by ring)

theorem hFun_of_nonneg (x : ℝ) (hx : 0 ≤ x) :
    hFun x = Real.exp (x * x / 2) - gLow x := by
  rw [hFun, normalCDF_of_nonneg x hx, sub_mul, one_mul, lowerN, gLow]
  congr 1
  exact exp_shift _ _ _ _ (by ring)

theorem hFun_strictMono : StrictMono hFun := by
  intro x y hxy
  rcases lt_or_le x 0 with hx | hx
  · rcases lt_or_le y 0 with hy | hy
    · rw [hFun_of_neg x hx, hFun_of_neg y hy]
      exact gLow_strict_anti (-y) (-x) (by linarith) (by linarith)
    · rw [hFun_of_neg x hx, hFun_of_nonneg y hy]
      have h1 : gLow (-x) ≤ 0.5 * 0.999999999 := gLow_le (-x) (by linarith)
      have h2 : gLow y ≤ 0.5 * 0.999999999 := gLow_le y hy
      have h3 : (1 : ℝ) ≤ Real.exp (y * y / 2) := by
        rw [show (1 : ℝ) = Real.exp 0 from (Real.exp_zero).symm]
        apply Real.exp_le_exp.mpr
        positivity
      linarith
  · rw [hFun_of_nonneg x hx, hFun_of_nonneg y (by linarith)]
    have h1 : Real.exp (x * x / 2) < Real.exp (y * y / 2) := by
      apply Real.exp_lt_exp.mpr
      nlinarith
    have h2 : gLow y < gLow x := gLow_strict_anti x y hx hxy
    linarith

theorem exp_cancel (q : ℝ) : Real.exp (-q) * Real.exp q = 1 := by
  rw [← Real.exp_add, neg_add_cancel, Real.exp_zero]

/-- Strict positivity of the general-regime call price. -/
theorem call_core_lt (S K r sigma T : ℝ) (hS : 0 < S) (hK : 0 < K)
    (hT : 0 < T) (hv : 0 < sigma) :
    K * Real.exp (-r * T) *
        normalCDF (calculateD2 (calculateD1 S K r sigma T) sigma T) <
      S * normalCDF (calculateD1 S K r sigma T) := by
  set d1v := calculateD1 S K r sigma T with hd1v
  set d2v := calculateD2 d1v sigma T with hd2v
  have hlt : d2v < d1v := by
    rw [hd2v, calculateD2]
    have h := mul_pos hv (Real.sqrt_pos.mpr hT)
    linarith
  have hh := hFun_strictMono hlt
  rw [hFun, hFun] at hh
  set X := Real.exp ((d1v * d1v - d2v * d2v) / 2) with hX
  have hXpos : 0 < X := Real.exp_pos _
  have hE2pos : 0 < Real.exp (d2v * d2v / 2) := Real.exp_pos _
  have hexpand : Real.exp (d1v * d1v / 2) = X * Real.exp (d2v * d2v / 2) := by
    rw [hX, ← Real.exp_add]
    congr 1
    ring
  rw [hexpand] at hh
  have hcore : normalCDF d2v < normalCDF d1v * X := by
    have h := (mul_lt_mul_right hE2pos).mp (by linarith [hh] :
      normalCDF d2v * Real.exp (d2v * d2v / 2) <
        normalCDF d1v * X * Real.exp (d2v * d2v / 2))
    exact h
  have hKX : K * Real.exp (-r * T) * X = S := by
    have hE := exp_dsq S K r sigma T hS hK hT hv
    rw [hX, hd2v, hd1v]
    rw [mul_assoc, hE]
    field_simp
  have hpos : (0 : ℝ) < K * Real.exp (-r * T) :=
    mul_pos hK (Real.exp_pos _)
  calc K * Real.exp (-r * T) * normalCDF d2v <
      K * Real.exp (-r * T) * (normalCDF d1v * X) :=
        (mul_lt_mul_left hpos).mpr hcore
    _ = K * Real.exp (-r * T) * X * normalCDF d1v := by ring
    _ = S * normalCDF d1v := by rw [hKX]

/-- Strict positivity of the general-regime put price. -/
theorem put_core_lt (S K r sigma T : ℝ) (hS : 0 < S) (hK : 0 < K)
    (hT : 0 < T) (hv : 0 < sigma) :
    S * normalCDF (-(calculateD1 S K r sigma T)) <
      K * Real.exp (-r * T) *
        normalCDF (-(calculateD2 (calculateD1 S K r sigma T) sigma T)) := by
  set d1v := calculateD1 S K r sigma T with hd1v
  set d2v := calculateD2 d1v sigma T with hd2v
  have hlt : d2v < d1v := by
    rw [hd2v, calculateD2]
    have h := mul_pos hv (Real.sqrt_pos.mpr hT)
    linarith
  have hh := hFun_strictMono (neg_lt_neg hlt)
  rw [hFun, hFun] at hh
  rw [show -d1v * -d1v = d1v * d1v by ring,
    show -d2v * -d2v = d2v * d2v by ring] at hh
  set X := Real.exp ((d1v * d1v - d2v * d2v) / 2) with hX
  have hXpos : 0 < X := Real.exp_pos _
  have hE2pos : 0 < Real.exp (d2v * d2v / 2) := Real.exp_pos _
  have hexpand : Real.exp (d1v * d1v / 2) = X * Real.exp (d2v * d2v / 2) := by
    rw [hX, ← Real.exp_add]
    congr 1
    ring
  rw [hexpand] at hh
  have hcore : normalCDF (-d1v) * X < normalCDF (-d2v) := by
    have h := (mul_lt_mul_right hE2pos).mp (by linarith [hh] :
      normalCDF (-d1v) * X * Real.exp (d2v * d2v / 2) <
        normalCDF (-d2v) * Real.exp (d2v * d2v / 2))
    exact h
  have hKX : K * Real.exp (-r * T) * X = S := by
    have hE := exp_dsq S K r sigma T hS hK hT hv
    rw [hX, hd2v, hd1v]
    rw [mul_assoc, hE]
    field_simp
  have hpos : (0 : ℝ) < K * Real.exp (-r * T) :=
    mul_pos hK (Real.exp_pos _)
  have hstart : S * normalCDF (-d1v) =
      K * Real.exp (-r * T) * (normalCDF (-d1v) * X) := by
    rw [show K * Real.exp (-r * T) * (normalCDF (-d1v) * X) =
      K * Real.exp (-r * T) * X * normalCDF (-d1v) by ring, hKX]
  calc S * normalCDF (-d1v) =
      K * Real.exp (-r * T) * (normalCDF (-d1v) * X) := hstart
    _ < K * Real.exp (-r * T) * normalCDF (-d2v) :=
        (mul_lt_mul_left hpos).mpr hcore

theorem price_call_expiry (K S r sigma : ℝ) :
    (price ⟨OptionType.Call, K, 0⟩ ⟨S, r, sigma⟩).price = max (S - K) 0 := by
  unfold price
  simp only [if_pos rfl]
  rfl

theorem price_put_expiry (K S r sigma : ℝ) :
    (price ⟨OptionType.Put, K, 0⟩ ⟨S, r, sigma⟩).price = max (K - S) 0 := by
  unfold price
  simp only [if_pos rfl]
  rfl

/-- C5: for every valid input (strike > 0, time ≥ 0, spot > 0, volatility ≥ 0,
any rate) the price is non-negative in every regime; the clamp-free general
regime inherits it from the closed form with the program's `normalCDF`. -/
theorem price_nonneg (o : Option) (md : MarketData) (hS : 0 < md.spot)
    (hK : 0 < o.strike) (hT : 0 ≤ o.timeToExpiration)
    (hv : 0 ≤ md.volatility) : 0 ≤ (price o md).price := by
  obtain ⟨kind, Kv, Tv⟩ := o
  obtain ⟨Sv, rv, sv⟩ := md
  rcases eq_or_ne Tv 0 with rfl | h0
  · cases kind
    · rw [price_call_expiry]
      exact le_max_right _ 0
    · rw [price_put_expiry]
      exact le_max_right _ 0
  · rcases eq_or_ne sv 0 with rfl | hv0
    · cases kind
      · rw [price_call_zero_vol Kv Sv rv Tv h0]
        exact le_max_right _ 0
      · rw [price_put_zero_vol Kv Sv rv Tv h0]
        exact le_max_right _ 0
    · have hT' : 0 < Tv := lt_of_le_of_ne hT (Ne.symm h0)
      have hv' : 0 < sv := lt_of_le_of_ne hv (Ne.symm hv0)
      cases kind
      · rw [price_call_general Kv Sv rv sv Tv h0 hv0, calculateCallPrice]
        have h := call_core_lt Sv Kv rv sv Tv hS hK hT' hv'
        linarith
      · rw [price_put_general Kv Sv rv sv Tv h0 hv0, calculatePutPrice]
        have h := put_core_lt Sv Kv rv sv Tv hS hK hT' hv'
        linarith

/-- Witness for C5 at an at-the-money call, `S=K=100, r=0.05, σ=0.2, T=1`. -/
theorem price_nonneg_witness :
    (0 : ℝ) < 100 ∧ (0 : ℝ) < 100 ∧ (0 : ℝ) ≤ 1 ∧ (0 : ℝ) ≤ 0.2 ∧
      0 ≤ (price ⟨OptionType.Call, 100, 1⟩ ⟨100, 0.05, 0.2⟩).price :=
  ⟨by norm_num, by norm_num, by norm_num, by norm_num,
    price_nonneg ⟨OptionType.Call, 100, 1⟩ ⟨100, 0.05, 0.2⟩ (by norm_num)
      (by norm_num) (by norm_num) (by norm_num)⟩

/-! ## The exact standard normal CDF and the accuracy claim (C8)

The source comment says `normalCDF` approximates the cumulative distribution
function, but the Abramowitz–Stegun 7.1.26 coefficients it uses approximate
`erf(x)`, and the missing `x/√2` rescaling makes the function evaluate
`Φ(√2·x)` instead of `Φ(x)`.  At `x = 1` the error is ≈ 0.08, not ≈ 7.5e-8. -/

/-- The exact standard normal cumulative distribution function. -/
def stdNormalCDF (x : ℝ) : ℝ :=
  (Real.sqrt (2 * Real.pi))⁻¹ * ∫ t in Set.Iic x, Real.exp (-(1 / 2) * t ^ 2)

theorem gauss_integrable :
    MeasureTheory.Integrable (fun t : ℝ => Real.exp (-(1 / 2) * t ^ 2)) :=
  integrable_exp_neg_mul_sq (by norm_num)

theorem gauss_Iic_zero :
    (∫ t in Set.Iic (0 : ℝ), Real.exp (-(1 / 2) * t ^ 2)) =
      Real.sqrt (2 * Real.pi) / 2 := by
  have h := integral_comp_neg_Iic (0 : ℝ)
    (fun t => Real.exp (-(1 / 2) * t ^ 2))
  simp only [neg_sq, neg_zero] at h
  rw [h, integral_gaussian_Ioi (1 / 2),
    show Real.pi / (1 / 2) = 2 * Real.pi by ring]

theorem gauss_Iic_one_le :
    (∫ t in Set.Iic (1 : ℝ), Real.exp (-(1 / 2) * t ^ 2)) ≤
      Real.sqrt (2 * Real.pi) / 2 + 1 := by
  have h0 : MeasureTheory.IntegrableOn
      (fun t : ℝ => Real.exp (-(1 / 2) * t ^ 2)) (Set.Iic 0) :=
    gauss_integrable.integrableOn
  have h1 : MeasureTheory.IntegrableOn
      (fun t : ℝ => Real.exp (-(1 / 2) * t ^ 2)) (Set.Iic 1) :=
    gauss_integrable.integrableOn
  have hsub : (∫ t in Set.Iic (1 : ℝ), Real.exp (-(1 / 2) * t ^ 2)) -
      (∫ t in Set.Iic (0 : ℝ), Real.exp (-(1 / 2) * t ^ 2)) =
      ∫ t in (0 : ℝ)..1, Real.exp (-(1 / 2) * t ^ 2) :=
    intervalIntegral.integral_Iic_sub_Iic h0 h1
  have hmono : (∫ t in (0 : ℝ)..1, Real.exp (-(1 / 2) * t ^ 2)) ≤
      ∫ t in (0 : ℝ)..1, (1 : ℝ) := by
    apply intervalIntegral.integral_mono_on (by norm_num)
      gauss_integrable.intervalIntegrable intervalIntegrable_const
    intro x hx
    have h := Real.exp_le_exp.mpr (show -(1 / 2) * x ^ 2 ≤ 0 by nlinarith [sq_nonneg x])
    simpa [Real.exp_zero] using h
  have hconst : (∫ t in (0 : ℝ)..1, (1 : ℝ)) = 1 := by simp
  have := gauss_Iic_zero
  linarith

theorem stdNormalCDF_one_le : stdNormalCDF 1 ≤ 0.9 := by
  rw [stdNormalCDF]
  have hpi := Real.pi_gt_d6
  have h2pi : (2.5 : ℝ) ≤ Real.sqrt (2 * Real.pi) := by
    rw [Real.le_sqrt (by norm_num) (by positivity)]
    nlinarith
  have hsqpos : (0 : ℝ) < Real.sqrt (2 * Real.pi) := by linarith
  have hcpos : (0 : ℝ) ≤ (Real.sqrt (2 * Real.pi))⁻¹ := by positivity
  have hcs : (Real.sqrt (2 * Real.pi))⁻¹ * Real.sqrt (2 * Real.pi) = 1 :=
    inv_mul_cancel₀ (ne_of_gt hsqpos)
  have hc : (Real.sqrt (2 * Real.pi))⁻¹ ≤ 0.4 := by
    nlinarith [mul_le_mul_of_nonneg_left h2pi hcpos]
  have hint := gauss_Iic_one_le
  calc (Real.sqrt (2 * Real.pi))⁻¹ *
      ∫ t in Set.Iic (1 : ℝ), Real.exp (-(1 / 2) * t ^ 2) ≤
      (Real.sqrt (2 * Real.pi))⁻¹ * (Real.sqrt (2 * Real.pi) / 2 + 1) :=
        mul_le_mul_of_nonneg_left hint hcpos
    _ = 1 / 2 + (Real.sqrt (2 * Real.pi))⁻¹ := by
        linear_combination (1 / 2) * hcs
    _ ≤ 1 / 2 + 0.4 := by linarith
    _ ≤ 0.9 := by norm_num

theorem normalCDF_one_ge : 0.92 ≤ normalCDF 1 := by
  rw [normalCDF_of_nonneg 1 (by norm_num), lowerN]
  have htpos := tVal_pos 1 (by norm_num)
  have ht1 := tVal_le_one 1 (by norm_num)
  have hA0 : 0 ≤ asPoly (1 / (1 + p * 1)) := asPoly_nonneg htpos.le ht1
  have hA : asPoly (1 / (1 + p * 1)) ≤ 0.4276 := by
    norm_num [asPoly, a1, a2, a3, a4, a5, p]
  have hE0 : 0 < Real.exp (-(1 * 1 : ℝ)) := Real.exp_pos _
  have hE : Real.exp (-(1 * 1 : ℝ)) ≤ 0.368 := by
    rw [show (-(1 * 1) : ℝ) = -1 by norm_num, Real.exp_neg]
    have he := Real.exp_one_gt_d9
    have hepos : (0 : ℝ) < Real.exp 1 := Real.exp_pos 1
    have hcancel : (Real.exp 1)⁻¹ * Real.exp 1 = 1 :=
      inv_mul_cancel₀ (ne_of_gt hepos)
    nlinarith [inv_pos.mpr hepos]
  nlinarith

/-- C8 (code bug): `normalCDF` is the unrescaled Abramowitz–Stegun `erf`
approximation, i.e. it evaluates ≈ `Φ(√2·x)`; at `x = 1` it exceeds `0.92`
while the exact standard normal CDF is below `0.9`, an absolute error above
`0.02` — six orders of magnitude beyond the claimed ≈ 7.5e-8. -/
theorem normalCDF_far_from_std_normal :
    0.92 ≤ normalCDF 1 ∧ stdNormalCDF 1 ≤ 0.9 ∧
      0.02 ≤ |normalCDF 1 - stdNormalCDF 1| := by
  refine ⟨normalCDF_one_ge, stdNormalCDF_one_le, ?_⟩
  have h1 := normalCDF_one_ge
  have h2 := stdNormalCDF_one_le
  have h3 : 0.02 ≤ normalCDF 1 - stdNormalCDF 1 := by linarith
  exact le_trans h3 (le_abs_self _)

/-! ## Monotonicity in volatility (C9): the core inequality

The derivative of the general-regime price in `sigma` has the sign of
`x·M(|y|) − y·e^((y²−x²)/2)·M(|x|)` where `x = d1 > y = d2` and
`M(u) = 2u·asPoly(t_u) + p·t_u²·dPoly(t_u)` collects the two branch
derivatives of `normalCDF`.  Its positivity reduces to monotonicity of
`t³·dPoly t` on `[0,1]`. -/

/-- `(t³ · dPoly t)' / t²`, a globally positive quartic. -/
def jPoly (t : ℝ) : ℝ :=
  3 * a1 + 8 * a2 * t + 15 * a3 * t ^ 2 + 24 * a4 * t ^ 3 + 35 * a5 * t ^ 4

theorem jPoly_pos (t : ℝ) : 0 < jPoly t := by
  simp only [jPoly, a1, a2, a3, a4, a5]
  nlinarith [sq_nonneg (t * t - 0.4693998527816892 * t + 0.025248113669826943),
    sq_nonneg (t - 0.061964011839535954), sq_nonneg t, sq_nonneg (t * t)]

def wPoly (t : ℝ) : ℝ := t ^ 3 * dPoly t

theorem wPoly_hasDerivAt (t : ℝ) : HasDerivAt wPoly (t ^ 2 * jPoly t) t := by
  have h : wPoly = fun x : ℝ =>
      a1 * x ^ 3 + 2 * a2 * x ^ 4 + 3 * a3 * x ^ 5 + 4 * a4 * x ^ 6 +
        5 * a5 * x ^ 7 := by
    funext x
    rw [wPoly, dPoly]
    ring
  rw [h]
  have h3 := (hasDerivAt_pow 3 t).const_mul a1
  have h4 := (hasDerivAt_pow 4 t).const_mul (2 * a2)
  have h5 := (hasDerivAt_pow 5 t).const_mul (3 * a3)
  have h6 := (hasDerivAt_pow 6 t).const_mul (4 * a4)
  have h7 := (hasDerivAt_pow 7 t).const_mul (5 * a5)
  have hsum := (((h3.add h4).add h5).add h6).add h7
  convert hsum using 1
  rw [jPoly]
  push_cast
  ring

theorem wPoly_continuous : Continuous wPoly := by
  unfold wPoly dPoly
  fun_prop

theorem wPoly_monoOn : MonotoneOn wPoly (Set.Icc (0 : ℝ) 1) := by
  apply monotoneOn_of_deriv_nonneg (convex_Icc 0 1)
    wPoly_continuous.continuousOn
  · intro t ht
    exact (wPoly_hasDerivAt t).differentiableAt.differentiableWithinAt
  · intro t ht
    rw [(wPoly_hasDerivAt t).deriv]
    have := jPoly_pos t
    nlinarith [sq_nonneg t]

theorem wPoly_nonneg {t : ℝ} (h0 : 0 ≤ t) : 0 ≤ wPoly t := by
  rw [wPoly]
  have := dPoly_pos t
  positivity

/-- The combined branch-derivative factor of `normalCDF` at `|x| = u`. -/
def mFun (u : ℝ) : ℝ :=
  2 * u * asPoly (1 / (1 + p * u)) +
    p * (1 / (1 + p * u)) ^ 2 * dPoly (1 / (1 + p * u))

theorem mFun_pos (u : ℝ) (hu : 0 ≤ u) : 0 < mFun u := by
  rw [mFun]
  have h1 := tVal_pos u hu
  have h2 := tVal_le_one u hu
  have h3 := asPoly_nonneg h1.le h2
  have h4 := dPoly_pos (1 / (1 + p * u))
  have hterm1 : 0 ≤ 2 * u * asPoly (1 / (1 + p * u)) := by positivity
  have hterm2 : 0 < p * (1 / (1 + p * u)) ^ 2 * dPoly (1 / (1 + p * u)) :=
    mul_pos (mul_pos p_pos (pow_pos h1 2)) h4
  linarith

theorem mfun_cross (u v : ℝ) (hu : 0 ≤ u) (huv : u ≤ v) :
    u * mFun v ≤ v * mFun u := by
  rw [mFun, mFun]
  set tu := 1 / (1 + p * u) with htu
  set tv := 1 / (1 + p * v) with htv
  have hv0 : 0 ≤ v := le_trans hu huv
  have htupos := tVal_pos u hu
  have htvpos := tVal_pos v hv0
  have htu1 := tVal_le_one u hu
  have htv1 := tVal_le_one v hv0
  have htvu : tv ≤ tu := by
    rcases eq_or_lt_of_le huv with rfl | h
    · exact le_rfl
    · exact (tVal_lt_of_lt u v hu h).le
  have hu_id : p * u * tu = 1 - tu := by
    rw [htu]
    have : (0 : ℝ) < 1 + p * u := by nlinarith [p_pos]
    field_simp
  have hv_id : p * v * tv = 1 - tv := by
    rw [htv]
    have : (0 : ℝ) < 1 + p * v := by nlinarith [p_pos]
    field_simp
  have hP : asPoly tv ≤ asPoly tu := asPoly_mono01 htvpos.le htvu htu1
  have hterm1 : 2 * (u * v) * asPoly tv ≤ 2 * (u * v) * asPoly tu := by
    apply mul_le_mul_of_nonneg_left hP
    positivity
  have hW : wPoly tv ≤ wPoly tu :=
    wPoly_monoOn ⟨htvpos.le, htv1⟩ ⟨htupos.le, htu1⟩ htvu
  have hW0 : 0 ≤ wPoly tv := wPoly_nonneg htvpos.le
  have h1tv : 0 ≤ 1 - tv := by linarith
  have h1uv : 1 - tu ≤ 1 - tv := by linarith
  have hterm2 : (1 - tu) * wPoly tv ≤ (1 - tv) * wPoly tu :=
    mul_le_mul h1uv hW hW0 h1tv
  have hc : 0 < p * tu * tv := by
    have := p_pos
    positivity
  have key : (u * (2 * v * asPoly tv + p * tv ^ 2 * dPoly tv)) *
      (p * tu * tv) ≤
      (v * (2 * u * asPoly tu + p * tu ^ 2 * dPoly tu)) * (p * tu * tv) := by
    have e1 : (u * (2 * v * asPoly tv + p * tv ^ 2 * dPoly tv)) *
        (p * tu * tv) =
        (p * tu * tv) * (2 * (u * v) * asPoly tv) +
          p * ((p * u * tu) * wPoly tv) := by
      rw [wPoly]
      ring
    have e2 : (v * (2 * u * asPoly tu + p * tu ^ 2 * dPoly tu)) *
        (p * tu * tv) =
        (p * tu * tv) * (2 * (u * v) * asPoly tu) +
          p * ((p * v * tv) * wPoly tu) := by
      rw [wPoly]
      ring
    rw [e1, e2, hu_id, hv_id]
    have hA : (p * tu * tv) * (2 * (u * v) * asPoly tv) ≤
        (p * tu * tv) * (2 * (u * v) * asPoly tu) :=
      mul_le_mul_of_nonneg_left hterm1 hc.le
    have hB : p * ((1 - tu) * wPoly tv) ≤ p * ((1 - tv) * wPoly tu) :=
      mul_le_mul_of_nonneg_left hterm2 p_pos.le
    linarith
  exact le_of_mul_le_mul_right key hc

/-- The master inequality behind positivity of the vega of the approximated
price: for `y < x`, `y·e^((y²−x²)/2)·M(|x|) < x·M(|y|)`. -/
theorem star_ineq (x y : ℝ) (hyx : y < x) :
    y * Real.exp ((y * y - x * x) / 2) * mFun (abs x) < x * mFun (abs y) := by
  rcases lt_or_le y 0 with hy | hy
  · rcases le_or_lt 0 x with hx | hx
    · have hMx := mFun_pos (abs x) (abs_nonneg x)
      have hMy := mFun_pos (abs y) (abs_nonneg y)
      have hE := Real.exp_pos ((y * y - x * x) / 2)
      have hL : y * Real.exp ((y * y - x * x) / 2) * mFun (abs x) < 0 :=
        mul_neg_of_neg_of_pos (mul_neg_of_neg_of_pos hy hE) hMx
      have hR : 0 ≤ x * mFun (abs y) := mul_nonneg hx hMy.le
      linarith
    · have ha : 0 < -x := by linarith
      have hab : -x < -y := by linarith
      rw [abs_of_neg hx, abs_of_neg hy]
      have hcross := mfun_cross (-x) (-y) ha.le hab.le
      have hE1 : 1 < Real.exp ((y * y - x * x) / 2) := by
        rw [show (1 : ℝ) = Real.exp 0 from Real.exp_zero.symm]
        apply Real.exp_lt_exp.mpr
        nlinarith
      have hMx := mFun_pos (-x) ha.le
      have h2 : y * mFun (-x) ≤ x * mFun (-y) := by linarith [hcross]
      have h1 : y * Real.exp ((y * y - x * x) / 2) * mFun (-x) <
          y * mFun (-x) := by
        have hneg : y * mFun (-x) < 0 := mul_neg_of_neg_of_pos hy hMx
        nlinarith
      linarith
  · rw [abs_of_nonneg hy, abs_of_nonneg (by linarith : (0 : ℝ) ≤ x)]
    have hcross := mfun_cross y x hy hyx.le
    have hMx := mFun_pos x (by linarith)
    have hMy := mFun_pos y hy
    rcases eq_or_lt_of_le hy with rfl | hy0
    · simpa using mul_pos (by linarith : (0 : ℝ) < x) hMy
    · have hElt : Real.exp ((y * y - x * x) / 2) < 1 := by
        rw [show (1 : ℝ) = Real.exp 0 from Real.exp_zero.symm]
        apply Real.exp_lt_exp.mpr
        nlinarith
      have h1 : y * Real.exp ((y * y - x * x) / 2) * mFun x < y * mFun x := by
        nlinarith [mul_pos hy0 hMx]
      linarith

/-! ### The general-regime price as a function of volatility -/

/-- The guard-free `d1` viewed as a function of `sigma` (last argument). -/
def d1F (S K r T sigma : ℝ) : ℝ :=
  (Real.log (S / K) + (r + 0.5 * sigma * sigma) * T) / (sigma * Real.sqrt T)

def d2F (S K r T sigma : ℝ) : ℝ := d1F S K r T sigma - sigma * Real.sqrt T

theorem calculateD1_eq_d1F (S K r sigma T : ℝ) (hS : 0 < S) (hK : 0 < K)
    (hT : 0 < T) (hv : 0 < sigma) :
    calculateD1 S K r sigma T = d1F S K r T sigma := by
  rw [calculateD1, if_neg (by push_neg; exact ⟨hS, hK, hT, hv⟩), d1F]

theorem calculateD2_eq_d2F (S K r sigma T : ℝ) (hS : 0 < S) (hK : 0 < K)
    (hT : 0 < T) (hv : 0 < sigma) :
    calculateD2 (calculateD1 S K r sigma T) sigma T = d2F S K r T sigma := by
  rw [calculateD2, calculateD1_eq_d1F S K r sigma T hS hK hT hv, d2F]

theorem d2F_lt_d1F (S K r T sigma : ℝ) (hT : 0 < T) (hv : 0 < sigma) :
    d2F S K r T sigma < d1F S K r T sigma := by
  rw [d2F]
  have h := mul_pos hv (Real.sqrt_pos.mpr hT)
  linarith

theorem d1F_hasDerivAt (S K r T sigma : ℝ) (hT : 0 < T) (hv : sigma ≠ 0) :
    HasDerivAt (fun v => d1F S K r T v) (-(d2F S K r T sigma) / sigma)
      sigma := by
  have hst : 0 < Real.sqrt T := Real.sqrt_pos.mpr hT
  have hst0 : Real.sqrt T ≠ 0 := ne_of_gt hst
  have hst2 : Real.sqrt T ^ 2 = T := Real.sq_sqrt hT.le
  have hfeq : (fun v => d1F S K r T v) = fun v : ℝ =>
      ((Real.log (S / K) + r * T) / Real.sqrt T) * v⁻¹ +
        (0.5 * T / Real.sqrt T) * v := by
    funext v
    rw [d1F]
    rcases eq_or_ne v 0 with rfl | hv0
    · simp
    · field_simp
      ring
  rw [hfeq]
  have h1 := (hasDerivAt_inv hv).const_mul
    ((Real.log (S / K) + r * T) / Real.sqrt T)
  have h2 := (hasDerivAt_id sigma).const_mul (0.5 * T / Real.sqrt T)
  have hsum := h1.add h2
  convert hsum using 1
  rw [d2F, d1F]
  field_simp
  linear_combination (sigma ^ 4 * Real.sqrt T ^ 2) * hst2

theorem d2F_hasDerivAt (S K r T sigma : ℝ) (hT : 0 < T) (hv : sigma ≠ 0) :
    HasDerivAt (fun v => d2F S K r T v) (-(d1F S K r T sigma) / sigma)
      sigma := by
  have hst2 : Real.sqrt T ^ 2 = T := Real.sq_sqrt hT.le
  have h := (d1F_hasDerivAt S K r T sigma hT hv).sub
    ((hasDerivAt_id sigma).mul_const (Real.sqrt T))
  simp only [id_eq] at h
  have h2 : HasDerivAt (fun v => d2F S K r T v)
      (-(d2F S K r T sigma) / sigma - 1 * Real.sqrt T) sigma := h
  convert h2 using 1
  rw [d2F]
  field_simp

theorem lowerN_hasDerivAt (u : ℝ) (hu : 0 < 1 + p * u) :
    HasDerivAt lowerN (-(0.5 * Real.exp (-(u * u)) * mFun u)) u := by
  have hne : 1 + p * u ≠ 0 := ne_of_gt hu
  have hlin : HasDerivAt (fun w : ℝ => 1 + p * w) p u := by
    simpa using ((hasDerivAt_id u).const_mul p).const_add 1
  have htf : HasDerivAt (fun w : ℝ => 1 / (1 + p * w))
      ((0 * (1 + p * u) - 1 * p) / (1 + p * u) ^ 2) u :=
    (hasDerivAt_const u (1 : ℝ)).div hlin hne
  have hcomp : HasDerivAt (fun w : ℝ => asPoly (1 / (1 + p * w)))
      (dPoly (1 / (1 + p * u)) * ((0 * (1 + p * u) - 1 * p) /
        (1 + p * u) ^ 2)) u :=
    (asPoly_hasDerivAt (1 / (1 + p * u))).comp u htf
  have hneg : HasDerivAt (fun w : ℝ => -(w * w)) (-(1 * u + u * 1)) u :=
    ((hasDerivAt_id u).mul (hasDerivAt_id u)).neg
  have hsq := hneg.exp
  have hprod := hcomp.mul hsq
  have hfull := hprod.const_mul (0.5 : ℝ)
  have hshape : (fun w : ℝ => 0.5 * ((fun w : ℝ => asPoly (1 / (1 + p * w))) w *
      (fun w : ℝ => Real.exp (-(w * w))) w)) = lowerN := by
    funext w
    rw [lowerN]
  rw [hshape] at hfull
  convert hfull using 1
  rw [mFun]
  have h2 : (1 + p * u) ^ 2 ≠ 0 := pow_ne_zero 2 hne
  field_simp
  ring

/-! ### Branch formulas for the call price and their derivatives -/

/-- Call price formula when `d1 ≥ 0` and `d2 ≥ 0` (both upper branch). -/
def callUU (S K r T sigma : ℝ) : ℝ :=
  S * (1 - lowerN (d1F S K r T sigma)) -
    K * Real.exp (-r * T) * (1 - lowerN (d2F S K r T sigma))

/-- Call price formula when `d1 ≥ 0` and `d2 ≤ 0`. -/
def callUL (S K r T sigma : ℝ) : ℝ :=
  S * (1 - lowerN (d1F S K r T sigma)) -
    K * Real.exp (-r * T) * lowerN (-(d2F S K r T sigma))

/-- Call price formula when `d1 ≤ 0` and `d2 ≤ 0` (both lower branch). -/
def callLL (S K r T sigma : ℝ) : ℝ :=
  S * lowerN (-(d1F S K r T sigma)) -
    K * Real.exp (-r * T) * lowerN (-(d2F S K r T sigma))

/-- The common derivative of the three branch formulas. -/
def derivCall (S K r T sigma : ℝ) : ℝ :=
  0.5 / sigma *
    (d1F S K r T sigma * (K * Real.exp (-r * T)) *
        Real.exp (-(d2F S K r T sigma * d2F S K r T sigma)) *
        mFun (abs (d2F S K r T sigma)) -
      d2F S K r T sigma * S *
        Real.exp (-(d1F S K r T sigma * d1F S K r T sigma)) *
        mFun (abs (d1F S K r T sigma)))

theorem one_add_p_mul_pos {u : ℝ} (hu : 0 ≤ u) : 0 < 1 + p * u := by
  nlinarith [p_pos]

theorem callUU_hasDerivAt (S K r T sigma : ℝ) (hT : 0 < T) (hv : 0 < sigma)
    (h1 : 0 ≤ d1F S K r T sigma) (h2 : 0 ≤ d2F S K r T sigma) :
    HasDerivAt (fun v => callUU S K r T v) (derivCall S K r T sigma) sigma := by
  have hv0 : sigma ≠ 0 := ne_of_gt hv
  have hc1 := (lowerN_hasDerivAt (d1F S K r T sigma)
    (one_add_p_mul_pos h1)).comp sigma (d1F_hasDerivAt S K r T sigma hT hv0)
  have hc2 := (lowerN_hasDerivAt (d2F S K r T sigma)
    (one_add_p_mul_pos h2)).comp sigma (d2F_hasDerivAt S K r T sigma hT hv0)
  have hfull := ((hc1.const_sub 1).const_mul S).sub
    ((hc2.const_sub 1).const_mul (K * Real.exp (-r * T)))
  have hshape : (fun v => S * (1 - (lowerN ∘ fun v => d1F S K r T v) v) -
      K * Real.exp (-r * T) * (1 - (lowerN ∘ fun v => d2F S K r T v) v)) =
      fun v => callUU S K r T v := by
    funext v
    simp only [Function.comp]
    rw [callUU]
  rw [hshape] at hfull
  convert hfull using 1
  rw [derivCall, abs_of_nonneg h1, abs_of_nonneg h2]
  field_simp
  ring

theorem callUL_hasDerivAt (S K r T sigma : ℝ) (hT : 0 < T) (hv : 0 < sigma)
    (h1 : 0 ≤ d1F S K r T sigma) (h2 : d2F S K r T sigma ≤ 0) :
    HasDerivAt (fun v => callUL S K r T v) (derivCall S K r T sigma) sigma := by
  have hv0 : sigma ≠ 0 := ne_of_gt hv
  have hc1 := (lowerN_hasDerivAt (d1F S K r T sigma)
    (one_add_p_mul_pos h1)).comp sigma (d1F_hasDerivAt S K r T sigma hT hv0)
  have hc2 := (lowerN_hasDerivAt (-(d2F S K r T sigma))
    (one_add_p_mul_pos (by linarith))).comp sigma
    (d2F_hasDerivAt S K r T sigma hT hv0).neg
  have hfull := ((hc1.const_sub 1).const_mul S).sub
    (hc2.const_mul (K * Real.exp (-r * T)))
  have hshape : (fun v => S * (1 - (lowerN ∘ fun v => d1F S K r T v) v) -
      K * Real.exp (-r * T) *
        ((lowerN ∘ fun v => -(d2F S K r T v)) v)) =
      fun v => callUL S K r T v := by
    funext v
    simp only [Function.comp]
    rw [callUL]
  rw [hshape] at hfull
  convert hfull using 1
  rw [derivCall, abs_of_nonneg h1, abs_of_nonpos h2,
    show -(d2F S K r T sigma) * -(d2F S K r T sigma) =
      d2F S K r T sigma * d2F S K r T sigma by ring]
  field_simp
  ring

theorem callLL_hasDerivAt (S K r T sigma : ℝ) (hT : 0 < T) (hv : 0 < sigma)
    (h1 : d1F S K r T sigma ≤ 0) (h2 : d2F S K r T sigma ≤ 0) :
    HasDerivAt (fun v => callLL S K r T v) (derivCall S K r T sigma) sigma := by
  have hv0 : sigma ≠ 0 := ne_of_gt hv
  have hc1 := (lowerN_hasDerivAt (-(d1F S K r T sigma))
    (one_add_p_mul_pos (by linarith))).comp sigma
    (d1F_hasDerivAt S K r T sigma hT hv0).neg
  have hc2 := (lowerN_hasDerivAt (-(d2F S K r T sigma))
    (one_add_p_mul_pos (by linarith))).comp sigma
    (d2F_hasDerivAt S K r T sigma hT hv0).neg
  have hfull := (hc1.const_mul S).sub
    (hc2.const_mul (K * Real.exp (-r * T)))
  have hshape : (fun v => S * ((lowerN ∘ fun v => -(d1F S K r T v)) v) -
      K * Real.exp (-r * T) *
        ((lowerN ∘ fun v => -(d2F S K r T v)) v)) =
      fun v => callLL S K r T v := by
    funext v
    simp only [Function.comp]
    rw [callLL]
  rw [hshape] at hfull
  convert hfull using 1
  rw [derivCall, abs_of_nonpos h1, abs_of_nonpos h2,
    show -(d1F S K r T sigma) * -(d1F S K r T sigma) =
      d1F S K r T sigma * d1F S K r T sigma by ring,
    show -(d2F S K r T sigma) * -(d2F S K r T sigma) =
      d2F S K r T sigma * d2F S K r T sigma by ring]
  field_simp
  ring

/-- The discount identity in `d1F/d2F` form:
`K·e^(−rT) = S·e^((d2²−d1²)/2)`. -/
theorem discount_identity (S K r T sigma : ℝ) (hS : 0 < S) (hK : 0 < K)
    (hT : 0 < T) (hv : 0 < sigma) :
    K * Real.exp (-r * T) =
      S * Real.exp ((d2F S K r T sigma * d2F S K r T sigma -
        d1F S K r T sigma * d1F S K r T sigma) / 2) := by
  have hE := exp_dsq S K r sigma T hS hK hT hv
  rw [calculateD2_eq_d2F S K r sigma T hS hK hT hv,
    calculateD1_eq_d1F S K r sigma T hS hK hT hv] at hE
  have hK0 : K ≠ 0 := ne_of_gt hK
  have hcancel : Real.exp ((d1F S K r T sigma * d1F S K r T sigma -
      d2F S K r T sigma * d2F S K r T sigma) / 2) *
      Real.exp ((d2F S K r T sigma * d2F S K r T sigma -
        d1F S K r T sigma * d1F S K r T sigma) / 2) = 1 := by
    rw [← Real.exp_add]
    rw [show (d1F S K r T sigma * d1F S K r T sigma -
        d2F S K r T sigma * d2F S K r T sigma) / 2 +
        (d2F S K r T sigma * d2F S K r T sigma -
          d1F S K r T sigma * d1F S K r T sigma) / 2 = 0 by ring]
    exact Real.exp_zero
  have h1 : K * (Real.exp (-r * T) *
      Real.exp ((d1F S K r T sigma * d1F S K r T sigma -
        d2F S K r T sigma * d2F S K r T sigma) / 2)) *
      Real.exp ((d2F S K r T sigma * d2F S K r T sigma -
        d1F S K r T sigma * d1F S K r T sigma) / 2) =
      K * (S / K) * Real.exp ((d2F S K r T sigma * d2F S K r T sigma -
        d1F S K r T sigma * d1F S K r T sigma) / 2) := by
    rw [hE]
  calc K * Real.exp (-r * T) = K * Real.exp (-r * T) *
      (Real.exp ((d1F S K r T sigma * d1F S K r T sigma -
        d2F S K r T sigma * d2F S K r T sigma) / 2) *
       Real.exp ((d2F S K r T sigma * d2F S K r T sigma -
        d1F S K r T sigma * d1F S K r T sigma) / 2)) := by
        rw [hcancel, mul_one]
    _ = K * (S / K) * Real.exp ((d2F S K r T sigma * d2F S K r T sigma -
        d1F S K r T sigma * d1F S K r T sigma) / 2) := by
        rw [← h1]
        ring
    _ = S * Real.exp ((d2F S K r T sigma * d2F S K r T sigma -
        d1F S K r T sigma * d1F S K r T sigma) / 2) := by
        have hks : K * (S / K) = S := by field_simp
        rw [hks]

theorem derivCall_pos (S K r T sigma : ℝ) (hS : 0 < S) (hK : 0 < K)
    (hT : 0 < T) (hv : 0 < sigma) : 0 < derivCall S K r T sigma := by
  set x := d1F S K r T sigma with hx
  set y := d2F S K r T sigma with hy
  have hyx : y < x := d2F_lt_d1F S K r T sigma hT hv
  have hstar := star_ineq x y hyx
  have hKe := discount_identity S K r T sigma hS hK hT hv
  rw [derivCall, ← hx, ← hy, hKe]
  have he1 : Real.exp ((y * y - x * x) / 2) * Real.exp (-(y * y)) =
      Real.exp (-((x * x + y * y)) / 2) := by
    rw [← Real.exp_add]
    congr 1
    ring
  have he2 : Real.exp (-(x * x)) =
      Real.exp (-((x * x + y * y)) / 2) * Real.exp ((y * y - x * x) / 2) := by
    rw [← Real.exp_add]
    congr 1
    ring
  have hbr : x * (S * Real.exp ((y * y - x * x) / 2)) *
      Real.exp (-(y * y)) * mFun (abs y) -
      y * S * Real.exp (-(x * x)) * mFun (abs x) =
      S * Real.exp (-((x * x + y * y)) / 2) *
        (x * mFun (abs y) -
          y * Real.exp ((y * y - x * x) / 2) * mFun (abs x)) := by
    rw [he2]
    calc x * (S * Real.exp ((y * y - x * x) / 2)) * Real.exp (-(y * y)) *
          mFun (abs y) -
        y * S * (Real.exp (-((x * x + y * y)) / 2) *
          Real.exp ((y * y - x * x) / 2)) * mFun (abs x) =
        x * S * (Real.exp ((y * y - x * x) / 2) * Real.exp (-(y * y))) *
          mFun (abs y) -
        y * S * (Real.exp (-((x * x + y * y)) / 2) *
          Real.exp ((y * y - x * x) / 2)) * mFun (abs x) := by ring
      _ = S * Real.exp (-((x * x + y * y)) / 2) *
        (x * mFun (abs y) -
          y * Real.exp ((y * y - x * x) / 2) * mFun (abs x)) := by
          rw [he1]
          ring
  rw [hbr]
  have hEpos : 0 < Real.exp (-((x * x + y * y)) / 2) := Real.exp_pos _
  have hfac : 0 < x * mFun (abs y) -
      y * Real.exp ((y * y - x * x) / 2) * mFun (abs x) := by linarith
  have hhalf : 0 < 0.5 / sigma := by positivity
  exact mul_pos hhalf (mul_pos (mul_pos hS hEpos) hfac)

/-! ### Signs and the crossing point of `d1F`, `d2F` -/

theorem d1F_eq_split (S K r T sigma : ℝ) (hT : 0 < T) (hv : 0 < sigma) :
    d1F S K r T sigma =
      (Real.log (S / K) + r * T) / (sigma * Real.sqrt T) +
        0.5 * (sigma * Real.sqrt T) := by
  have hst : 0 < Real.sqrt T := Real.sqrt_pos.mpr hT
  have hst2 : Real.sqrt T ^ 2 = T := Real.sq_sqrt hT.le
  rw [d1F]
  field_simp
  linear_combination (-(0.5) * sigma ^ 2) * hst2

theorem d2F_eq_split (S K r T sigma : ℝ) (hT : 0 < T) (hv : 0 < sigma) :
    d2F S K r T sigma =
      (Real.log (S / K) + r * T) / (sigma * Real.sqrt T) -
        0.5 * (sigma * Real.sqrt T) := by
  rw [d2F, d1F_eq_split S K r T sigma hT hv]
  ring

theorem d1F_pos_of_m_nonneg (S K r T sigma : ℝ) (hT : 0 < T) (hv : 0 < sigma)
    (hm : 0 ≤ Real.log (S / K) + r * T) : 0 < d1F S K r T sigma := by
  rw [d1F_eq_split S K r T sigma hT hv]
  have hs : 0 < sigma * Real.sqrt T := mul_pos hv (Real.sqrt_pos.mpr hT)
  have h1 := div_nonneg hm hs.le
  nlinarith

theorem d2F_neg_of_m_nonpos (S K r T sigma : ℝ) (hT : 0 < T) (hv : 0 < sigma)
    (hm : Real.log (S / K) + r * T ≤ 0) : d2F S K r T sigma < 0 := by
  rw [d2F_eq_split S K r T sigma hT hv]
  have hs : 0 < sigma * Real.sqrt T := mul_pos hv (Real.sqrt_pos.mpr hT)
  have h1 := div_nonpos_of_nonpos_of_nonneg hm hs.le
  nlinarith

theorem d2F_strict_anti (S K r T va vb : ℝ) (hT : 0 < T) (ha : 0 < va)
    (hab : va < vb) (hm : 0 ≤ Real.log (S / K) + r * T) :
    d2F S K r T vb < d2F S K r T va := by
  have hst : 0 < Real.sqrt T := Real.sqrt_pos.mpr hT
  have hsa : 0 < va * Real.sqrt T := mul_pos ha hst
  have hsb : 0 < vb * Real.sqrt T := mul_pos (lt_trans ha hab) hst
  rw [d2F_eq_split S K r T va hT ha,
    d2F_eq_split S K r T vb hT (lt_trans ha hab)]
  have hfrac : (Real.log (S / K) + r * T) / (vb * Real.sqrt T) ≤
      (Real.log (S / K) + r * T) / (va * Real.sqrt T) := by
    apply div_le_div_of_nonneg_left hm hsa
    nlinarith
  nlinarith

theorem d1F_strict_mono_of_m_nonpos (S K r T va vb : ℝ) (hT : 0 < T)
    (ha : 0 < va) (hab : va < vb) (hm : Real.log (S / K) + r * T ≤ 0) :
    d1F S K r T va < d1F S K r T vb := by
  have hst : 0 < Real.sqrt T := Real.sqrt_pos.mpr hT
  have hsa : 0 < va * Real.sqrt T := mul_pos ha hst
  have hsb : 0 < vb * Real.sqrt T := mul_pos (lt_trans ha hab) hst
  rw [d1F_eq_split S K r T va hT ha,
    d1F_eq_split S K r T vb hT (lt_trans ha hab)]
  have hle : 1 / (vb * Real.sqrt T) ≤ 1 / (va * Real.sqrt T) := by
    apply one_div_le_one_div_of_le hsa
    nlinarith
  have hfrac : (Real.log (S / K) + r * T) * (1 / (va * Real.sqrt T)) ≤
      (Real.log (S / K) + r * T) * (1 / (vb * Real.sqrt T)) :=
    mul_le_mul_of_nonpos_left hle hm
  rw [mul_one_div, mul_one_div] at hfrac
  nlinarith

theorem d2F_zero_at_crossing (S K r T : ℝ) (hT : 0 < T)
    (hm : 0 < Real.log (S / K) + r * T) :
    d2F S K r T (Real.sqrt (2 * (Real.log (S / K) + r * T)) / Real.sqrt T) =
      0 := by
  have hst : 0 < Real.sqrt T := Real.sqrt_pos.mpr hT
  have hq : 0 < Real.sqrt (2 * (Real.log (S / K) + r * T)) :=
    Real.sqrt_pos.mpr (by linarith)
  have hq2 : Real.sqrt (2 * (Real.log (S / K) + r * T)) ^ 2 =
      2 * (Real.log (S / K) + r * T) := Real.sq_sqrt (by linarith)
  have hσ : 0 < Real.sqrt (2 * (Real.log (S / K) + r * T)) / Real.sqrt T :=
    div_pos hq hst
  rw [d2F_eq_split S K r T _ hT hσ]
  have hs : Real.sqrt (2 * (Real.log (S / K) + r * T)) / Real.sqrt T *
      Real.sqrt T = Real.sqrt (2 * (Real.log (S / K) + r * T)) := by
    field_simp
  rw [hs]
  rw [div_sub' _ _ _ (ne_of_gt hq)]
  rw [div_eq_zero_iff]
  left
  linear_combination (-(0.5)) * hq2

theorem d1F_zero_at_crossing (S K r T : ℝ) (hT : 0 < T)
    (hm : Real.log (S / K) + r * T < 0) :
    d1F S K r T
      (Real.sqrt (-(2 * (Real.log (S / K) + r * T))) / Real.sqrt T) = 0 := by
  have hst : 0 < Real.sqrt T := Real.sqrt_pos.mpr hT
  have hq : 0 < Real.sqrt (-(2 * (Real.log (S / K) + r * T))) :=
    Real.sqrt_pos.mpr (by linarith)
  have hq2 : Real.sqrt (-(2 * (Real.log (S / K) + r * T))) ^ 2 =
      -(2 * (Real.log (S / K) + r * T)) := Real.sq_sqrt (by linarith)
  have hσ : 0 < Real.sqrt (-(2 * (Real.log (S / K) + r * T))) / Real.sqrt T :=
    div_pos hq hst
  rw [d1F_eq_split S K r T _ hT hσ]
  have hs : Real.sqrt (-(2 * (Real.log (S / K) + r * T))) / Real.sqrt T *
      Real.sqrt T = Real.sqrt (-(2 * (Real.log (S / K) + r * T))) := by
    field_simp
  rw [hs]
  rw [div_add' _ _ _ (ne_of_gt hq)]
  rw [div_eq_zero_iff]
  left
  linear_combination 0.5 * hq2

/-! ### Branch equalities, values at the jump -/

theorem lowerN_zero : lowerN 0 = 0.4999999995 := by
  rw [lowerN]
  norm_num [asPoly_one]

theorem lowerN_le (u : ℝ) (hu : 0 ≤ u) : lowerN u ≤ 0.5 * 0.999999999 := by
  rw [lowerN]
  have h1 := tVal_pos u hu
  have h2 := tVal_le_one u hu
  have h3 := asPoly_nonneg h1.le h2
  have h4 := asPoly_le_one_val h1.le h2
  have h5 : Real.exp (-(u * u)) ≤ 1 := by
    rw [show (1 : ℝ) = Real.exp 0 from (Real.exp_zero).symm]
    apply Real.exp_le_exp.mpr
    nlinarith [sq_nonneg u]
  nlinarith [Real.exp_pos (-(u * u))]

theorem lowerN_strict_anti (u v : ℝ) (hu : 0 ≤ u) (huv : u < v) :
    lowerN v < lowerN u := by
  rw [lowerN, lowerN]
  have htv := tVal_pos v (by linarith)
  have htu := tVal_pos u hu
  have htu1 := tVal_le_one u hu
  have htv1 := tVal_le_one v (by linarith)
  have hPle : asPoly (1 / (1 + p * v)) ≤ asPoly (1 / (1 + p * u)) :=
    asPoly_mono01 htv.le (tVal_lt_of_lt u v hu huv).le htu1
  have hPv : 0 < asPoly (1 / (1 + p * v)) := asPoly_pos htv htv1
  have hElt : Real.exp (-(v * v)) < Real.exp (-(u * u)) := by
    apply Real.exp_lt_exp.mpr
    nlinarith
  have hEpos : 0 < Real.exp (-(v * v)) := Real.exp_pos _
  nlinarith

theorem callPrice_eq_UU (S K r sigma T : ℝ) (hS : 0 < S) (hK : 0 < K)
    (hT : 0 < T) (hv : 0 < sigma) (h1 : 0 ≤ d1F S K r T sigma)
    (h2 : 0 ≤ d2F S K r T sigma) :
    calculateCallPrice S K r T (calculateD1 S K r sigma T)
      (calculateD2 (calculateD1 S K r sigma T) sigma T) =
      callUU S K r T sigma := by
  rw [calculateCallPrice, calculateD2_eq_d2F S K r sigma T hS hK hT hv,
    calculateD1_eq_d1F S K r sigma T hS hK hT hv,
    normalCDF_of_nonneg _ h1, normalCDF_of_nonneg _ h2, callUU]

theorem callPrice_eq_UL (S K r sigma T : ℝ) (hS : 0 < S) (hK : 0 < K)
    (hT : 0 < T) (hv : 0 < sigma) (h1 : 0 ≤ d1F S K r T sigma)
    (h2 : d2F S K r T sigma < 0) :
    calculateCallPrice S K r T (calculateD1 S K r sigma T)
      (calculateD2 (calculateD1 S K r sigma T) sigma T) =
      callUL S K r T sigma := by
  rw [calculateCallPrice, calculateD2_eq_d2F S K r sigma T hS hK hT hv,
    calculateD1_eq_d1F S K r sigma T hS hK hT hv,
    normalCDF_of_nonneg _ h1, normalCDF_of_neg _ h2, callUL]

theorem callPrice_eq_LL (S K r sigma T : ℝ) (hS : 0 < S) (hK : 0 < K)
    (hT : 0 < T) (hv : 0 < sigma) (h1 : d1F S K r T sigma < 0)
    (h2 : d2F S K r T sigma < 0) :
    calculateCallPrice S K r T (calculateD1 S K r sigma T)
      (calculateD2 (calculateD1 S K r sigma T) sigma T) =
      callLL S K r T sigma := by
  rw [calculateCallPrice, calculateD2_eq_d2F S K r sigma T hS hK hT hv,
    calculateD1_eq_d1F S K r sigma T hS hK hT hv,
    normalCDF_of_neg _ h1, normalCDF_of_neg _ h2, callLL]

theorem putPrice_eq_UU (S K r sigma T : ℝ) (hS : 0 < S) (hK : 0 < K)
    (hT : 0 < T) (hv : 0 < sigma) (h1 : 0 < d1F S K r T sigma)
    (h2 : 0 < d2F S K r T sigma) :
    calculatePutPrice S K r T (calculateD1 S K r sigma T)
      (calculateD2 (calculateD1 S K r sigma T) sigma T) =
      callUU S K r T sigma - S + K * Real.exp (-r * T) := by
  rw [calculatePutPrice, calculateD2_eq_d2F S K r sigma T hS hK hT hv,
    calculateD1_eq_d1F S K r sigma T hS hK hT hv,
    normalCDF_of_neg (-(d1F S K r T sigma)) (by linarith),
    normalCDF_of_neg (-(d2F S K r T sigma)) (by linarith), neg_neg, neg_neg,
    callUU]
  ring

theorem putPrice_eq_UL (S K r sigma T : ℝ) (hS : 0 < S) (hK : 0 < K)
    (hT : 0 < T) (hv : 0 < sigma) (h1 : 0 < d1F S K r T sigma)
    (h2 : d2F S K r T sigma ≤ 0) :
    calculatePutPrice S K r T (calculateD1 S K r sigma T)
      (calculateD2 (calculateD1 S K r sigma T) sigma T) =
      callUL S K r T sigma - S + K * Real.exp (-r * T) := by
  rw [calculatePutPrice, calculateD2_eq_d2F S K r sigma T hS hK hT hv,
    calculateD1_eq_d1F S K r sigma T hS hK hT hv,
    normalCDF_of_neg (-(d1F S K r T sigma)) (by linarith),
    normalCDF_of_nonneg (-(d2F S K r T sigma)) (by linarith), neg_neg,
    callUL]
  ring

theorem putPrice_eq_LL (S K r sigma T : ℝ) (hS : 0 < S) (hK : 0 < K)
    (hT : 0 < T) (hv : 0 < sigma) (h1 : d1F S K r T sigma ≤ 0)
    (h2 : d2F S K r T sigma ≤ 0) :
    calculatePutPrice S K r T (calculateD1 S K r sigma T)
      (calculateD2 (calculateD1 S K r sigma T) sigma T) =
      callLL S K r T sigma - S + K * Real.exp (-r * T) := by
  rw [calculatePutPrice, calculateD2_eq_d2F S K r sigma T hS hK hT hv,
    calculateD1_eq_d1F S K r sigma T hS hK hT hv,
    normalCDF_of_nonneg (-(d1F S K r T sigma)) (by linarith),
    normalCDF_of_nonneg (-(d2F S K r T sigma)) (by linarith), callLL]
  ring

theorem jump_UU_UL (S K r T sigma : ℝ) (hK : 0 < K)
    (h2 : d2F S K r T sigma = 0) :
    callUU S K r T sigma < callUL S K r T sigma := by
  rw [callUU, callUL, h2, neg_zero, lowerN_zero]
  have hKe : 0 < K * Real.exp (-r * T) := mul_pos hK (Real.exp_pos _)
  nlinarith

theorem jump_LL_UL (S K r T sigma : ℝ) (hS : 0 < S)
    (h1 : d1F S K r T sigma = 0) :
    callLL S K r T sigma < callUL S K r T sigma := by
  rw [callLL, callUL, h1, neg_zero, lowerN_zero]
  nlinarith

/-! ### Strict monotonicity of the branch formulas on sign-stable pieces -/

theorem strictMono_UU (S K r T : ℝ) (hS : 0 < S) (hK : 0 < K) (hT : 0 < T)
    (A : Set ℝ) (hconv : Convex ℝ A)
    (hsig : ∀ σ ∈ A, 0 < σ ∧ 0 ≤ d1F S K r T σ ∧ 0 ≤ d2F S K r T σ) :
    StrictMonoOn (fun v => callUU S K r T v) A := by
  apply strictMonoOn_of_deriv_pos hconv
  · intro σ hσ
    obtain ⟨h0, h1, h2⟩ := hsig σ hσ
    exact (callUU_hasDerivAt S K r T σ hT h0 h1
      h2).continuousAt.continuousWithinAt
  · intro σ hσ
    obtain ⟨h0, h1, h2⟩ := hsig σ (interior_subset hσ)
    rw [(callUU_hasDerivAt S K r T σ hT h0 h1 h2).deriv]
    exact derivCall_pos S K r T σ hS hK hT h0

theorem strictMono_UL (S K r T : ℝ) (hS : 0 < S) (hK : 0 < K) (hT : 0 < T)
    (A : Set ℝ) (hconv : Convex ℝ A)
    (hsig : ∀ σ ∈ A, 0 < σ ∧ 0 ≤ d1F S K r T σ ∧ d2F S K r T σ ≤ 0) :
    StrictMonoOn (fun v => callUL S K r T v) A := by
  apply strictMonoOn_of_deriv_pos hconv
  · intro σ hσ
    obtain ⟨h0, h1, h2⟩ := hsig σ hσ
    exact (callUL_hasDerivAt S K r T σ hT h0 h1
      h2).continuousAt.continuousWithinAt
  · intro σ hσ
    obtain ⟨h0, h1, h2⟩ := hsig σ (interior_subset hσ)
    rw [(callUL_hasDerivAt S K r T σ hT h0 h1 h2).deriv]
    exact derivCall_pos S K r T σ hS hK hT h0

theorem strictMono_LL (S K r T : ℝ) (hS : 0 < S) (hK : 0 < K) (hT : 0 < T)
    (A : Set ℝ) (hconv : Convex ℝ A)
    (hsig : ∀ σ ∈ A, 0 < σ ∧ d1F S K r T σ ≤ 0 ∧ d2F S K r T σ ≤ 0) :
    StrictMonoOn (fun v => callLL S K r T v) A := by
  apply strictMonoOn_of_deriv_pos hconv
  · intro σ hσ
    obtain ⟨h0, h1, h2⟩ := hsig σ hσ
    exact (callLL_hasDerivAt S K r T σ hT h0 h1
      h2).continuousAt.continuousWithinAt
  · intro σ hσ
    obtain ⟨h0, h1, h2⟩ := hsig σ (interior_subset hσ)
    rw [(callLL_hasDerivAt S K r T σ hT h0 h1 h2).deriv]
    exact derivCall_pos S K r T σ hS hK hT h0

/-! ### The general-regime prices strictly dominate the zero-volatility
prices -/

theorem one_sub_normalCDF (x : ℝ) (hx : x ≠ 0) :
    1 - normalCDF x = normalCDF (-x) := by
  have h := normalCDF_add_neg x hx
  linarith

/-- The call price strictly exceeds the forward intrinsic value
`S − K·e^(−rT)`. -/
theorem call_above_forward (S K r sigma T : ℝ) (hS : 0 < S) (hK : 0 < K)
    (hT : 0 < T) (hv : 0 < sigma) :
    S - K * Real.exp (-r * T) <
      calculateCallPrice S K r T (calculateD1 S K r sigma T)
        (calculateD2 (calculateD1 S K r sigma T) sigma T) := by
  have hst : 0 < Real.sqrt T := Real.sqrt_pos.mpr hT
  have hs : 0 < sigma * Real.sqrt T := mul_pos hv hst
  have hd2eq : d2F S K r T sigma = d1F S K r T sigma - sigma * Real.sqrt T :=
    rfl
  rcases eq_or_ne (d1F S K r T sigma) 0 with h1 | h1
  · -- d1 = 0: d2 = −σ√T, and K·e^{−rT} = S·e^{s²/2}
    have hd2 : d2F S K r T sigma = -(sigma * Real.sqrt T) := by
      rw [hd2eq, h1]
      ring
    have hKe := discount_identity S K r T sigma hS hK hT hv
    rw [h1, hd2] at hKe
    rw [calculateCallPrice, calculateD2_eq_d2F S K r sigma T hS hK hT hv,
      calculateD1_eq_d1F S K r sigma T hS hK hT hv, h1, hd2, hKe,
      normalCDF_of_nonneg 0 le_rfl,
      normalCDF_of_neg (-(sigma * Real.sqrt T)) (by linarith), neg_neg]
    have hexp : Real.exp ((-(sigma * Real.sqrt T) * -(sigma * Real.sqrt T) -
        0 * 0) / 2) = Real.exp (sigma * Real.sqrt T * (sigma * Real.sqrt T) / 2) := by
      congr 1
      ring
    rw [hexp]
    have hE1 : 1 ≤ Real.exp (sigma * Real.sqrt T * (sigma * Real.sqrt T) / 2) := by
      rw [show (1 : ℝ) = Real.exp 0 from (Real.exp_zero).symm]
      apply Real.exp_le_exp.mpr
      positivity
    have hL0 : lowerN 0 = 0.4999999995 := lowerN_zero
    have hLs := lowerN_le (sigma * Real.sqrt T) hs.le
    have hlow : 0 < 1 - lowerN (sigma * Real.sqrt T) := by
      have := lowerN_le (sigma * Real.sqrt T) hs.le
      linarith
    -- goal: S − S·e^{q} < S·(1 − lowerN 0) − S·e^{q}·lowerN(σ√T)
    have hkey : Real.exp (sigma * Real.sqrt T * (sigma * Real.sqrt T) / 2) *
        lowerN (sigma * Real.sqrt T) + lowerN 0 <
        Real.exp (sigma * Real.sqrt T * (sigma * Real.sqrt T) / 2) := by
      have h2 : Real.exp (sigma * Real.sqrt T * (sigma * Real.sqrt T) / 2) *
          lowerN (sigma * Real.sqrt T) + lowerN 0 ≤
          Real.exp (sigma * Real.sqrt T * (sigma * Real.sqrt T) / 2) *
            (0.5 * 0.999999999) + 0.4999999995 := by
        have := mul_le_mul_of_nonneg_left hLs
          (le_trans zero_le_one hE1 : (0:ℝ) ≤ _)
        linarith [hL0]
      have h3 : Real.exp (sigma * Real.sqrt T * (sigma * Real.sqrt T) / 2) *
          (0.5 * 0.999999999) + 0.4999999995 <
          Real.exp (sigma * Real.sqrt T * (sigma * Real.sqrt T) / 2) := by
        nlinarith [hE1]
      linarith
    nlinarith [hkey, hS]
  · rcases eq_or_ne (d2F S K r T sigma) 0 with h2 | h2
    · -- d2 = 0: d1 = σ√T, K·e^{−rT} = S·e^{−s²/2}
      have hd1 : d1F S K r T sigma = sigma * Real.sqrt T := by
        rw [hd2eq] at h2
        linarith
      have hKe := discount_identity S K r T sigma hS hK hT hv
      rw [hd1, h2] at hKe
      rw [calculateCallPrice, calculateD2_eq_d2F S K r sigma T hS hK hT hv,
        calculateD1_eq_d1F S K r sigma T hS hK hT hv, hd1, h2, hKe,
        normalCDF_of_nonneg (sigma * Real.sqrt T) hs.le,
        normalCDF_of_nonneg 0 le_rfl]
      have hexp : Real.exp ((0 * 0 - sigma * Real.sqrt T *
          (sigma * Real.sqrt T)) / 2) =
          Real.exp (-(sigma * Real.sqrt T * (sigma * Real.sqrt T)) / 2) := by
        congr 1
        ring
      rw [hexp]
      -- goal: S − S·e^{−q} < S(1 − lowerN s) − S e^{−q}(1 − lowerN 0)
      -- ⟺ e^{−q}·lowerN 0 > lowerN s  (after cancelling)
      have hq : 0 < sigma * Real.sqrt T * (sigma * Real.sqrt T) := by positivity
      have hkey : lowerN (sigma * Real.sqrt T) <
          Real.exp (-(sigma * Real.sqrt T * (sigma * Real.sqrt T)) / 2) *
            lowerN 0 := by
        rw [lowerN, lowerN,
          show (1 : ℝ) / (1 + p * 0) = 1 by norm_num,
          show (-(0 * 0) : ℝ) = 0 by norm_num, Real.exp_zero, asPoly_one]
        have ht := tVal_pos (sigma * Real.sqrt T) hs.le
        have ht1 := tVal_le_one (sigma * Real.sqrt T) hs.le
        have htlt : 1 / (1 + p * (sigma * Real.sqrt T)) < 1 := by
          rw [div_lt_one (by nlinarith [p_pos])]
          nlinarith [p_pos]
        have hP : asPoly (1 / (1 + p * (sigma * Real.sqrt T))) <
            0.999999999 := by
          have h := asPoly_strictMonoOn (Set.mem_Icc.mpr ⟨ht.le, ht1⟩)
            (Set.mem_Icc.mpr ⟨zero_le_one, le_rfl⟩) htlt
          rwa [asPoly_one] at h
        have hP0 : 0 ≤ asPoly (1 / (1 + p * (sigma * Real.sqrt T))) :=
          asPoly_nonneg ht.le ht1
        have hEpos : 0 < Real.exp
            (-(sigma * Real.sqrt T * (sigma * Real.sqrt T))) := Real.exp_pos _
        have hEE : Real.exp (-(sigma * Real.sqrt T * (sigma * Real.sqrt T))) ≤
            Real.exp (-(sigma * Real.sqrt T * (sigma * Real.sqrt T)) / 2) := by
          apply Real.exp_le_exp.mpr
          nlinarith
        nlinarith [mul_lt_mul_of_pos_right hP hEpos,
          mul_le_mul_of_nonneg_left hEE
            (by norm_num : (0 : ℝ) ≤ 0.999999999)]
      nlinarith [hS]
    · -- both nonzero: reduces to strict positivity of the put price
      have hput := put_core_lt S K r sigma T hS hK hT hv
      have h1n : 1 - normalCDF (calculateD1 S K r sigma T) =
          normalCDF (-(calculateD1 S K r sigma T)) := by
        apply one_sub_normalCDF
        rw [calculateD1_eq_d1F S K r sigma T hS hK hT hv]
        exact h1
      have h2n : 1 - normalCDF (calculateD2 (calculateD1 S K r sigma T)
          sigma T) = normalCDF (-(calculateD2 (calculateD1 S K r sigma T)
          sigma T)) := by
        apply one_sub_normalCDF
        rw [calculateD2_eq_d2F S K r sigma T hS hK hT hv]
        exact h2
      have hput2 : S * (1 - normalCDF (calculateD1 S K r sigma T)) <
          K * Real.exp (-r * T) *
            (1 - normalCDF (calculateD2 (calculateD1 S K r sigma T)
              sigma T)) := by
        rw [h1n, h2n]
        exact hput
      rw [calculateCallPrice]
      nlinarith [hput2]

theorem gLow_zero : gLow 0 = 0.4999999995 := by
  rw [gLow]
  norm_num [asPoly_one]

/-- The put price strictly exceeds the discounted intrinsic value
`K·e^(−rT) − S`. -/
theorem put_above_forward (S K r sigma T : ℝ) (hS : 0 < S) (hK : 0 < K)
    (hT : 0 < T) (hv : 0 < sigma) :
    K * Real.exp (-r * T) - S <
      calculatePutPrice S K r T (calculateD1 S K r sigma T)
        (calculateD2 (calculateD1 S K r sigma T) sigma T) := by
  have hst : 0 < Real.sqrt T := Real.sqrt_pos.mpr hT
  have hs : 0 < sigma * Real.sqrt T := mul_pos hv hst
  have hd2eq : d2F S K r T sigma = d1F S K r T sigma - sigma * Real.sqrt T :=
    rfl
  rcases eq_or_ne (d1F S K r T sigma) 0 with h1 | h1
  · -- d1 = 0: d2 = −σ√T and K·e^{−rT} = S·e^{s²/2}
    have hd2 : d2F S K r T sigma = -(sigma * Real.sqrt T) := by
      rw [hd2eq, h1]
      ring
    have hKe := discount_identity S K r T sigma hS hK hT hv
    rw [h1, hd2] at hKe
    rw [calculatePutPrice, calculateD2_eq_d2F S K r sigma T hS hK hT hv,
      calculateD1_eq_d1F S K r sigma T hS hK hT hv, h1, hd2, hKe, neg_neg,
      neg_zero, normalCDF_of_nonneg (sigma * Real.sqrt T) hs.le,
      normalCDF_of_nonneg 0 le_rfl]
    have hexp : Real.exp ((-(sigma * Real.sqrt T) * -(sigma * Real.sqrt T) -
        0 * 0) / 2) =
        Real.exp (sigma * Real.sqrt T * (sigma * Real.sqrt T) / 2) := by
      congr 1
      ring
    rw [hexp]
    -- goal: S·e^{q} − S < S·e^{q}(1 − lowerN s) − S(1 − lowerN 0)
    -- ⟺ e^{q}·lowerN s < lowerN 0, i.e. gLow s < gLow 0
    have hglow : Real.exp (sigma * Real.sqrt T * (sigma * Real.sqrt T) / 2) *
        lowerN (sigma * Real.sqrt T) = gLow (sigma * Real.sqrt T) := by
      rw [lowerN, gLow]
      rw [show Real.exp (sigma * Real.sqrt T * (sigma * Real.sqrt T) / 2) *
          (0.5 * (asPoly (1 / (1 + p * (sigma * Real.sqrt T))) *
            Real.exp (-(sigma * Real.sqrt T * (sigma * Real.sqrt T))))) =
          0.5 * (asPoly (1 / (1 + p * (sigma * Real.sqrt T))) *
            Real.exp (-(sigma * Real.sqrt T * (sigma * Real.sqrt T)))) *
          Real.exp (sigma * Real.sqrt T * (sigma * Real.sqrt T) / 2) by ring]
      exact exp_shift _ _ _ _ (by ring)
    have hanti : gLow (sigma * Real.sqrt T) < gLow 0 :=
      gLow_strict_anti 0 (sigma * Real.sqrt T) le_rfl hs
    rw [gLow_zero] at hanti
    have hkey : gLow (sigma * Real.sqrt T) < lowerN 0 := by
      rw [lowerN_zero]
      linarith
    have hSe : S * (Real.exp (sigma * Real.sqrt T * (sigma * Real.sqrt T) / 2)
        * lowerN (sigma * Real.sqrt T)) = S * gLow (sigma * Real.sqrt T) := by
      rw [hglow]
    have hmul : S * gLow (sigma * Real.sqrt T) < S * lowerN 0 :=
      mul_lt_mul_of_pos_left hkey hS
    linarith [hSe, hmul]
  · rcases eq_or_ne (d2F S K r T sigma) 0 with h2 | h2
    · -- d2 = 0: d1 = σ√T and K·e^{−rT} = S·e^{−s²/2}
      have hd1 : d1F S K r T sigma = sigma * Real.sqrt T := by
        rw [hd2eq] at h2
        linarith
      have hKe := discount_identity S K r T sigma hS hK hT hv
      rw [hd1, h2] at hKe
      rw [calculatePutPrice, calculateD2_eq_d2F S K r sigma T hS hK hT hv,
        calculateD1_eq_d1F S K r sigma T hS hK hT hv, hd1, h2, hKe, neg_zero,
        normalCDF_of_nonneg 0 le_rfl,
        normalCDF_of_neg (-(sigma * Real.sqrt T)) (by linarith), neg_neg]
      have hexp : Real.exp ((0 * 0 - sigma * Real.sqrt T *
          (sigma * Real.sqrt T)) / 2) =
          Real.exp (-(sigma * Real.sqrt T * (sigma * Real.sqrt T)) / 2) := by
        congr 1
        ring
      rw [hexp]
      -- goal: S·e^{−q} − S < S·e^{−q}(1 − lowerN 0) − S·lowerN s
      -- ⟺ lowerN s + e^{−q}·lowerN 0 < 1
      have hLs := lowerN_le (sigma * Real.sqrt T) hs.le
      have hL0pos : (0 : ℝ) < lowerN 0 := by
        rw [lowerN_zero]
        norm_num
      have hEle : Real.exp (-(sigma * Real.sqrt T * (sigma * Real.sqrt T)) / 2)
          ≤ 1 := by
        rw [show (1 : ℝ) = Real.exp 0 from (Real.exp_zero).symm]
        apply Real.exp_le_exp.mpr
        nlinarith
      have hEpos : 0 < Real.exp
          (-(sigma * Real.sqrt T * (sigma * Real.sqrt T)) / 2) :=
        Real.exp_pos _
      have hL0 : lowerN 0 = 0.4999999995 := lowerN_zero
      have hkey : Real.exp (-(sigma * Real.sqrt T * (sigma * Real.sqrt T)) / 2)
          * lowerN 0 + lowerN (sigma * Real.sqrt T) < 1 := by
        have h3 : Real.exp (-(sigma * Real.sqrt T * (sigma * Real.sqrt T)) / 2)
            * lowerN 0 ≤ lowerN 0 := by
          nlinarith
        linarith
      have hfin : 0 < S * (1 -
          (Real.exp (-(sigma * Real.sqrt T * (sigma * Real.sqrt T)) / 2)
            * lowerN 0 + lowerN (sigma * Real.sqrt T))) :=
        mul_pos hS (by linarith)
      linarith [hfin]
    · -- both nonzero: reduces to strict positivity of the call price
      have hcall := call_core_lt S K r sigma T hS hK hT hv
      have h1n : normalCDF (-(calculateD1 S K r sigma T)) =
          1 - normalCDF (calculateD1 S K r sigma T) := by
        have h := one_sub_normalCDF (calculateD1 S K r sigma T) (by
          rw [calculateD1_eq_d1F S K r sigma T hS hK hT hv]
          exact h1)
        linarith
      have h2n : normalCDF (-(calculateD2 (calculateD1 S K r sigma T)
          sigma T)) = 1 - normalCDF (calculateD2 (calculateD1 S K r sigma T)
          sigma T) := by
        have h := one_sub_normalCDF (calculateD2 (calculateD1 S K r sigma T)
          sigma T) (by
          rw [calculateD2_eq_d2F S K r sigma T hS hK hT hv]
          exact h2)
        linarith
      rw [calculatePutPrice, h1n, h2n]
      nlinarith [hcall]

/-! ### Assembled strict monotonicity of the call price in volatility -/

theorem callRaw_strictMono (S K r T v1 v2 : ℝ) (hS : 0 < S) (hK : 0 < K)
    (hT : 0 < T) (hv1 : 0 < v1) (h12 : v1 < v2) :
    calculateCallPrice S K r T (calculateD1 S K r v1 T)
      (calculateD2 (calculateD1 S K r v1 T) v1 T) <
    calculateCallPrice S K r T (calculateD1 S K r v2 T)
      (calculateD2 (calculateD1 S K r v2 T) v2 T) := by
  have hv2 : 0 < v2 := lt_trans hv1 h12
  have hst : 0 < Real.sqrt T := Real.sqrt_pos.mpr hT
  rcases lt_trichotomy (Real.log (S / K) + r * T) 0 with hm | hm | hm
  · -- m < 0 : crossing of d1F at σ⋆, pieces LL then UL
    set cp := Real.sqrt (-(2 * (Real.log (S / K) + r * T))) / Real.sqrt T
      with hcp
    have hcppos : 0 < cp :=
      div_pos (Real.sqrt_pos.mpr (by linarith)) hst
    have hzero : d1F S K r T cp = 0 := d1F_zero_at_crossing S K r T hT hm
    have hd1neg : ∀ σ, 0 < σ → σ < cp → d1F S K r T σ < 0 := by
      intro σ h0 hlt
      have := d1F_strict_mono_of_m_nonpos S K r T σ cp hT h0 hlt hm.le
      linarith [hzero]
    have hd1pos : ∀ σ, cp < σ → 0 < d1F S K r T σ := by
      intro σ hlt
      have := d1F_strict_mono_of_m_nonpos S K r T cp σ hT hcppos hlt hm.le
      linarith [hzero]
    have hd2neg : ∀ σ, 0 < σ → d2F S K r T σ < 0 := fun σ h0 =>
      d2F_neg_of_m_nonpos S K r T σ hT h0 hm.le
    have hLL := strictMono_LL S K r T hS hK hT (Set.Ioc 0 cp)
      (convex_Ioc 0 cp) (by
        intro σ hσ
        refine ⟨hσ.1, ?_, (hd2neg σ hσ.1).le⟩
        rcases eq_or_lt_of_le hσ.2 with heq | hlt
        · rw [heq]
          exact le_of_eq hzero
        · exact (hd1neg σ hσ.1 hlt).le)
    have hUL := strictMono_UL S K r T hS hK hT (Set.Ici cp)
      (convex_Ici cp) (by
        intro σ hσ
        have h0 : 0 < σ := lt_of_lt_of_le hcppos hσ
        refine ⟨h0, ?_, (hd2neg σ h0).le⟩
        rcases eq_or_lt_of_le hσ with heq | hlt
        · rw [← heq]
          exact le_of_eq hzero.symm
        · exact (hd1pos σ hlt).le)
    have hEqLL : ∀ σ, 0 < σ → σ < cp →
        calculateCallPrice S K r T (calculateD1 S K r σ T)
          (calculateD2 (calculateD1 S K r σ T) σ T) = callLL S K r T σ :=
      fun σ h0 hlt => callPrice_eq_LL S K r σ T hS hK hT h0
        (hd1neg σ h0 hlt) (hd2neg σ h0)
    have hEqUL : ∀ σ, cp ≤ σ →
        calculateCallPrice S K r T (calculateD1 S K r σ T)
          (calculateD2 (calculateD1 S K r σ T) σ T) = callUL S K r T σ := by
      intro σ hle
      have h0 : 0 < σ := lt_of_lt_of_le hcppos hle
      refine callPrice_eq_UL S K r σ T hS hK hT h0 ?_ (hd2neg σ h0)
      rcases eq_or_lt_of_le hle with heq | hlt
      · rw [← heq]
        exact le_of_eq hzero.symm
      · exact (hd1pos σ hlt).le
    rcases le_or_lt cp v1 with hc1 | hc1
    · rw [hEqUL v1 hc1, hEqUL v2 (le_trans hc1 h12.le)]
      exact hUL hc1 (le_trans hc1 h12.le) h12
    · rcases le_or_lt v2 cp with hc2 | hc2
      · rcases eq_or_lt_of_le hc2 with heq | hlt2
        · rw [hEqLL v1 hv1 hc1, hEqUL v2 heq.ge]
          have hz2 : d1F S K r T v2 = 0 := by
            rw [heq]
            exact hzero
          have s1 : callLL S K r T v1 < callLL S K r T v2 :=
            hLL ⟨hv1, hc1.le⟩ ⟨hv2, heq.le⟩ h12
          have s2 : callLL S K r T v2 < callUL S K r T v2 :=
            jump_LL_UL S K r T v2 hS hz2
          linarith
        · rw [hEqLL v1 hv1 hc1, hEqLL v2 hv2 hlt2]
          exact hLL ⟨hv1, hc1.le⟩ ⟨hv2, hlt2.le⟩ h12
      · rw [hEqLL v1 hv1 hc1, hEqUL v2 hc2.le]
        have s1 : callLL S K r T v1 < callLL S K r T cp :=
          hLL ⟨hv1, hc1.le⟩ ⟨hcppos, le_rfl⟩ hc1
        have s2 : callLL S K r T cp < callUL S K r T cp :=
          jump_LL_UL S K r T cp hS hzero
        have s3 : callUL S K r T cp < callUL S K r T v2 :=
          hUL le_rfl hc2.le hc2
        linarith
  · -- m = 0 : d1F > 0, d2F < 0 throughout
    have hd1 : ∀ σ, 0 < σ → 0 < d1F S K r T σ := fun σ h0 =>
      d1F_pos_of_m_nonneg S K r T σ hT h0 (le_of_eq hm.symm)
    have hd2 : ∀ σ, 0 < σ → d2F S K r T σ < 0 := fun σ h0 =>
      d2F_neg_of_m_nonpos S K r T σ hT h0 (le_of_eq hm)
    have hUL := strictMono_UL S K r T hS hK hT (Set.Ioi 0) (convex_Ioi 0)
      (fun σ hσ => ⟨hσ, (hd1 σ hσ).le, (hd2 σ hσ).le⟩)
    rw [callPrice_eq_UL S K r v1 T hS hK hT hv1 (hd1 v1 hv1).le (hd2 v1 hv1),
      callPrice_eq_UL S K r v2 T hS hK hT hv2 (hd1 v2 hv2).le (hd2 v2 hv2)]
    exact hUL hv1 hv2 h12
  · -- m > 0 : crossing of d2F at σ⋆, pieces UU then UL
    set cp := Real.sqrt (2 * (Real.log (S / K) + r * T)) / Real.sqrt T
      with hcp
    have hcppos : 0 < cp :=
      div_pos (Real.sqrt_pos.mpr (by linarith)) hst
    have hzero : d2F S K r T cp = 0 := d2F_zero_at_crossing S K r T hT hm
    have hd2pos : ∀ σ, 0 < σ → σ < cp → 0 < d2F S K r T σ := by
      intro σ h0 hlt
      have := d2F_strict_anti S K r T σ cp hT h0 hlt hm.le
      linarith [hzero]
    have hd2neg : ∀ σ, cp < σ → d2F S K r T σ < 0 := by
      intro σ hlt
      have := d2F_strict_anti S K r T cp σ hT hcppos hlt hm.le
      linarith [hzero]
    have hd1pos : ∀ σ, 0 < σ → 0 < d1F S K r T σ := fun σ h0 =>
      d1F_pos_of_m_nonneg S K r T σ hT h0 hm.le
    have hUU := strictMono_UU S K r T hS hK hT (Set.Ioc 0 cp)
      (convex_Ioc 0 cp) (by
        intro σ hσ
        refine ⟨hσ.1, (hd1pos σ hσ.1).le, ?_⟩
        rcases eq_or_lt_of_le hσ.2 with heq | hlt
        · rw [heq]
          exact le_of_eq hzero.symm
        · exact (hd2pos σ hσ.1 hlt).le)
    have hUL := strictMono_UL S K r T hS hK hT (Set.Ici cp)
      (convex_Ici cp) (by
        intro σ hσ
        have h0 : 0 < σ := lt_of_lt_of_le hcppos hσ
        refine ⟨h0, (hd1pos σ h0).le, ?_⟩
        rcases eq_or_lt_of_le hσ with heq | hlt
        · rw [← heq]
          exact le_of_eq hzero
        · exact (hd2neg σ hlt).le)
    have hEqUU : ∀ σ, 0 < σ → σ ≤ cp →
        calculateCallPrice S K r T (calculateD1 S K r σ T)
          (calculateD2 (calculateD1 S K r σ T) σ T) = callUU S K r T σ := by
      intro σ h0 hle
      refine callPrice_eq_UU S K r σ T hS hK hT h0 (hd1pos σ h0).le ?_
      rcases eq_or_lt_of_le hle with heq | hlt
      · rw [heq]
        exact le_of_eq hzero.symm
      · exact (hd2pos σ h0 hlt).le
    have hEqUL : ∀ σ, cp < σ →
        calculateCallPrice S K r T (calculateD1 S K r σ T)
          (calculateD2 (calculateD1 S K r σ T) σ T) = callUL S K r T σ := by
      intro σ hlt
      have h0 : 0 < σ := lt_trans hcppos hlt
      exact callPrice_eq_UL S K r σ T hS hK hT h0 (hd1pos σ h0).le
        (hd2neg σ hlt)
    rcases le_or_lt v2 cp with hc1 | hc1
    · rw [hEqUU v1 hv1 (le_trans h12.le hc1), hEqUU v2 hv2 hc1]
      exact hUU ⟨hv1, le_trans h12.le hc1⟩ ⟨hv2, hc1⟩ h12
    · rcases le_or_lt v1 cp with hc2 | hc2
      · rw [hEqUU v1 hv1 hc2, hEqUL v2 hc1]
        have s1 : callUU S K r T v1 ≤ callUU S K r T cp := by
          rcases eq_or_lt_of_le hc2 with heq | hlt
          · rw [heq]
          · exact (hUU ⟨hv1, hc2⟩ ⟨hcppos, le_rfl⟩ hlt).le
        have s2 : callUU S K r T cp < callUL S K r T cp :=
          jump_UU_UL S K r T cp hK hzero
        have s3 : callUL S K r T cp < callUL S K r T v2 :=
          hUL le_rfl hc1.le hc1
        linarith
      · rw [hEqUL v1 hc2, hEqUL v2 (lt_trans hc2 h12)]
        exact hUL hc2.le (le_trans hc2.le h12.le) h12

/-! ### Assembled strict monotonicity of the put price in volatility -/

theorem putRaw_strictMono (S K r T v1 v2 : ℝ) (hS : 0 < S) (hK : 0 < K)
    (hT : 0 < T) (hv1 : 0 < v1) (h12 : v1 < v2) :
    calculatePutPrice S K r T (calculateD1 S K r v1 T)
      (calculateD2 (calculateD1 S K r v1 T) v1 T) <
    calculatePutPrice S K r T (calculateD1 S K r v2 T)
      (calculateD2 (calculateD1 S K r v2 T) v2 T) := by
  have hv2 : 0 < v2 := lt_trans hv1 h12
  have hst : 0 < Real.sqrt T := Real.sqrt_pos.mpr hT
  rcases lt_trichotomy (Real.log (S / K) + r * T) 0 with hm | hm | hm
  · -- m < 0 : pieces LL on (0, σ⋆] and UL on (σ⋆, ∞)
    set cp := Real.sqrt (-(2 * (Real.log (S / K) + r * T))) / Real.sqrt T
      with hcp
    have hcppos : 0 < cp :=
      div_pos (Real.sqrt_pos.mpr (by linarith)) hst
    have hzero : d1F S K r T cp = 0 := d1F_zero_at_crossing S K r T hT hm
    have hd1neg : ∀ σ, 0 < σ → σ < cp → d1F S K r T σ < 0 := by
      intro σ h0 hlt
      have := d1F_strict_mono_of_m_nonpos S K r T σ cp hT h0 hlt hm.le
      linarith [hzero]
    have hd1pos : ∀ σ, cp < σ → 0 < d1F S K r T σ := by
      intro σ hlt
      have := d1F_strict_mono_of_m_nonpos S K r T cp σ hT hcppos hlt hm.le
      linarith [hzero]
    have hd2neg : ∀ σ, 0 < σ → d2F S K r T σ < 0 := fun σ h0 =>
      d2F_neg_of_m_nonpos S K r T σ hT h0 hm.le
    have hLL := strictMono_LL S K r T hS hK hT (Set.Ioc 0 cp)
      (convex_Ioc 0 cp) (by
        intro σ hσ
        refine ⟨hσ.1, ?_, (hd2neg σ hσ.1).le⟩
        rcases eq_or_lt_of_le hσ.2 with heq | hlt
        · rw [heq]
          exact le_of_eq hzero
        · exact (hd1neg σ hσ.1 hlt).le)
    have hUL := strictMono_UL S K r T hS hK hT (Set.Ici cp)
      (convex_Ici cp) (by
        intro σ hσ
        have h0 : 0 < σ := lt_of_lt_of_le hcppos hσ
        refine ⟨h0, ?_, (hd2neg σ h0).le⟩
        rcases eq_or_lt_of_le hσ with heq | hlt
        · rw [← heq]
          exact le_of_eq hzero.symm
        · exact (hd1pos σ hlt).le)
    have hEqLL : ∀ σ, 0 < σ → σ ≤ cp →
        calculatePutPrice S K r T (calculateD1 S K r σ T)
          (calculateD2 (calculateD1 S K r σ T) σ T) =
          callLL S K r T σ - S + K * Real.exp (-r * T) := by
      intro σ h0 hle
      refine putPrice_eq_LL S K r σ T hS hK hT h0 ?_ (hd2neg σ h0).le
      rcases eq_or_lt_of_le hle with heq | hlt
      · rw [heq]
        exact le_of_eq hzero
      · exact (hd1neg σ h0 hlt).le
    have hEqUL : ∀ σ, cp < σ →
        calculatePutPrice S K r T (calculateD1 S K r σ T)
          (calculateD2 (calculateD1 S K r σ T) σ T) =
          callUL S K r T σ - S + K * Real.exp (-r * T) := by
      intro σ hlt
      have h0 : 0 < σ := lt_trans hcppos hlt
      exact putPrice_eq_UL S K r σ T hS hK hT h0 (hd1pos σ hlt)
        (hd2neg σ h0).le
    rcases le_or_lt v2 cp with hc1 | hc1
    · rw [hEqLL v1 hv1 (le_trans h12.le hc1), hEqLL v2 hv2 hc1]
      have := hLL ⟨hv1, le_trans h12.le hc1⟩ ⟨hv2, hc1⟩ h12
      linarith
    · rcases le_or_lt v1 cp with hc2 | hc2
      · rw [hEqLL v1 hv1 hc2, hEqUL v2 hc1]
        have s1 : callLL S K r T v1 ≤ callLL S K r T cp := by
          rcases eq_or_lt_of_le hc2 with heq | hlt
          · rw [heq]
          · exact (hLL ⟨hv1, hc2⟩ ⟨hcppos, le_rfl⟩ hlt).le
        have s2 : callLL S K r T cp < callUL S K r T cp :=
          jump_LL_UL S K r T cp hS hzero
        have s3 : callUL S K r T cp < callUL S K r T v2 :=
          hUL le_rfl hc1.le hc1
        linarith
      · rw [hEqUL v1 hc2, hEqUL v2 (lt_trans hc2 h12)]
        have := hUL hc2.le (le_trans hc2.le h12.le) h12
        linarith
  · -- m = 0 : single UL piece on (0, ∞)
    have hd1 : ∀ σ, 0 < σ → 0 < d1F S K r T σ := fun σ h0 =>
      d1F_pos_of_m_nonneg S K r T σ hT h0 (le_of_eq hm.symm)
    have hd2 : ∀ σ, 0 < σ → d2F S K r T σ < 0 := fun σ h0 =>
      d2F_neg_of_m_nonpos S K r T σ hT h0 (le_of_eq hm)
    have hUL := strictMono_UL S K r T hS hK hT (Set.Ioi 0) (convex_Ioi 0)
      (fun σ hσ => ⟨hσ, (hd1 σ hσ).le, (hd2 σ hσ).le⟩)
    rw [putPrice_eq_UL S K r v1 T hS hK hT hv1 (hd1 v1 hv1) (hd2 v1 hv1).le,
      putPrice_eq_UL S K r v2 T hS hK hT hv2 (hd1 v2 hv2) (hd2 v2 hv2).le]
    have := hUL hv1 hv2 h12
    linarith
  · -- m > 0 : pieces UU on (0, σ⋆) and UL on [σ⋆, ∞)
    set cp := Real.sqrt (2 * (Real.log (S / K) + r * T)) / Real.sqrt T
      with hcp
    have hcppos : 0 < cp :=
      div_pos (Real.sqrt_pos.mpr (by linarith)) hst
    have hzero : d2F S K r T cp = 0 := d2F_zero_at_crossing S K r T hT hm
    have hd2pos : ∀ σ, 0 < σ → σ < cp → 0 < d2F S K r T σ := by
      intro σ h0 hlt
      have := d2F_strict_anti S K r T σ cp hT h0 hlt hm.le
      linarith [hzero]
    have hd2neg : ∀ σ, cp < σ → d2F S K r T σ < 0 := by
      intro σ hlt
      have := d2F_strict_anti S K r T cp σ hT hcppos hlt hm.le
      linarith [hzero]
    have hd1pos : ∀ σ, 0 < σ → 0 < d1F S K r T σ := fun σ h0 =>
      d1F_pos_of_m_nonneg S K r T σ hT h0 hm.le
    have hUU := strictMono_UU S K r T hS hK hT (Set.Ioc 0 cp)
      (convex_Ioc 0 cp) (by
        intro σ hσ
        refine ⟨hσ.1, (hd1pos σ hσ.1).le, ?_⟩
        rcases eq_or_lt_of_le hσ.2 with heq | hlt
        · rw [heq]
          exact le_of_eq hzero.symm
        · exact (hd2pos σ hσ.1 hlt).le)
    have hUL := strictMono_UL S K r T hS hK hT (Set.Ici cp)
      (convex_Ici cp) (by
        intro σ hσ
        have h0 : 0 < σ := lt_of_lt_of_le hcppos hσ
        refine ⟨h0, (hd1pos σ h0).le, ?_⟩
        rcases eq_or_lt_of_le hσ with heq | hlt
        · rw [← heq]
          exact le_of_eq hzero
        · exact (hd2neg σ hlt).le)
    have hEqUU : ∀ σ, 0 < σ → σ < cp →
        calculatePutPrice S K r T (calculateD1 S K r σ T)
          (calculateD2 (calculateD1 S K r σ T) σ T) =
          callUU S K r T σ - S + K * Real.exp (-r * T) :=
      fun σ h0 hlt => putPrice_eq_UU S K r σ T hS hK hT h0 (hd1pos σ h0)
        (hd2pos σ h0 hlt)
    have hEqUL : ∀ σ, cp ≤ σ →
        calculatePutPrice S K r T (calculateD1 S K r σ T)
          (calculateD2 (calculateD1 S K r σ T) σ T) =
          callUL S K r T σ - S + K * Real.exp (-r * T) := by
      intro σ hle
      have h0 : 0 < σ := lt_of_lt_of_le hcppos hle
      refine putPrice_eq_UL S K r σ T hS hK hT h0 (hd1pos σ h0) ?_
      rcases eq_or_lt_of_le hle with heq | hlt
      · rw [← heq]
        exact le_of_eq hzero
      · exact (hd2neg σ hlt).le
    rcases le_or_lt cp v1 with hc1 | hc1
    · rw [hEqUL v1 hc1, hEqUL v2 (le_trans hc1 h12.le)]
      have := hUL hc1 (le_trans hc1 h12.le) h12
      linarith
    · rcases lt_or_le v2 cp with hc2 | hc2
      · rw [hEqUU v1 hv1 hc1, hEqUU v2 hv2 hc2]
        have := hUU ⟨hv1, hc1.le⟩ ⟨hv2, hc2.le⟩ h12
        linarith
      · rw [hEqUU v1 hv1 hc1, hEqUL v2 hc2]
        have s1 : callUU S K r T v1 < callUU S K r T cp :=
          hUU ⟨hv1, hc1.le⟩ ⟨hcppos, le_rfl⟩ hc1
        have s2 : callUU S K r T cp < callUL S K r T cp :=
          jump_UU_UL S K r T cp hK hzero
        have s3 : callUL S K r T cp ≤ callUL S K r T v2 := by
          rcases eq_or_lt_of_le hc2 with heq | hlt
          · rw [heq]
          · exact (hUL le_rfl hc2 hlt).le
        linarith

/-- C9: for fixed kind, strike, spot, rate and timeToExpiration > 0 (valid
inputs: spot > 0, strike > 0), the price returned by `price` strictly
increases with volatility: whenever `0 ≤ v1 < v2`, the price computed at
`v2` strictly exceeds the price computed at `v1`. -/
theorem price_strict_mono_in_vol (kind : OptionType) (K S r T v1 v2 : ℝ)
    (hS : 0 < S) (hK : 0 < K) (hT : 0 < T) (h1 : 0 ≤ v1) (h12 : v1 < v2) :
    (price ⟨kind, K, T⟩ ⟨S, r, v1⟩).price <
      (price ⟨kind, K, T⟩ ⟨S, r, v2⟩).price := by
  have hv2 : 0 < v2 := lt_of_le_of_lt h1 h12
  have hT0 : T ≠ 0 := ne_of_gt hT
  rcases eq_or_lt_of_le h1 with heq | hv1pos
  · -- v1 = 0: zero-vol regime against the general regime
    cases kind
    · rw [← heq, price_call_zero_vol K S r T hT0,
        price_call_general K S r v2 T hT0 (ne_of_gt hv2)]
      have hpos : 0 < calculateCallPrice S K r T (calculateD1 S K r v2 T)
          (calculateD2 (calculateD1 S K r v2 T) v2 T) := by
        rw [calculateCallPrice]
        linarith [call_core_lt S K r v2 T hS hK hT hv2]
      exact max_lt (call_above_forward S K r v2 T hS hK hT hv2) hpos
    · rw [← heq, price_put_zero_vol K S r T hT0,
        price_put_general K S r v2 T hT0 (ne_of_gt hv2)]
      have hpos : 0 < calculatePutPrice S K r T (calculateD1 S K r v2 T)
          (calculateD2 (calculateD1 S K r v2 T) v2 T) := by
        rw [calculatePutPrice]
        linarith [put_core_lt S K r v2 T hS hK hT hv2]
      exact max_lt (put_above_forward S K r v2 T hS hK hT hv2) hpos
  · cases kind
    · rw [price_call_general K S r v1 T hT0 (ne_of_gt hv1pos),
        price_call_general K S r v2 T hT0 (ne_of_gt hv2)]
      exact callRaw_strictMono S K r T v1 v2 hS hK hT hv1pos h12
    · rw [price_put_general K S r v1 T hT0 (ne_of_gt hv1pos),
        price_put_general K S r v2 T hT0 (ne_of_gt hv2)]
      exact putRaw_strictMono S K r T v1 v2 hS hK hT hv1pos h12

theorem price_strict_mono_in_vol_witness :
    (0 : ℝ) < 100 ∧ (0 : ℝ) < 100 ∧ (0 : ℝ) < 0.5 ∧ (0 : ℝ) ≤ 0.1 ∧
      (0.1 : ℝ) < 1 ∧
      (price ⟨OptionType.Call, 100, 0.5⟩ ⟨100, 0.05, 0.1⟩).price <
        (price ⟨OptionType.Call, 100, 0.5⟩ ⟨100, 0.05, 1⟩).price :=
  ⟨by norm_num, by norm_num, by norm_num, by norm_num, by norm_num,
    price_strict_mono_in_vol OptionType.Call 100 100 0.05 0.5 0.1 1
      (by norm_num) (by norm_num) (by norm_num) (by norm_num) (by norm_num)⟩

end

end Pricing
